import Mathlib

/-!
Verification of the grid-world explorer agent: a shallow embedding of
`environment.py` (the 5x5 grid world and its four tools) and
`agent_explorer.py` (the deterministic BFS planner standing in for the LLM,
and the ReAct orchestration loop), together with proofs of the behavioural
properties stated in the design document.

Python integers are modelled as `Int`, Python strings as `String`
(the program only manipulates ASCII text), Python dicts as insertion-ordered
association lists, and the unbounded `while` loop of the BFS as a fuelled
loop with a fuel that is proved sufficient.
-/

namespace GridAgent

/-- Cell kinds of the grid in `environment.py`: `0` = Open, `'W'` = Wall,
`'T'` = Treasure/Goal. -/
inductive Cell where
  | O : Cell
  | W : Cell
  | T : Cell
deriving DecidableEq, Repr

/-- A grid is a matrix of cells, row major, as in `SimpleEnvironment.grid`. -/
abbrev Grid := List (List Cell)

/-- Positions are `(row, col)` pairs of Python integers. -/
abbrev Pos := Int × Int

/-- The expression `len(self.grid)`. -/
def rowsOf (g : Grid) : Int := g.length

/-- The expression `len(self.grid[0])` (the program always uses the length of row 0 as the width;
grids fed to it are rectangular). -/
def colsOf (g : Grid) : Int := (g.headD []).length

/-- The bounds test `0 <= r < len(grid) and 0 <= c < len(grid[0])` used by
both `move_agent` and the BFS neighbour generator. -/
def inBnds (g : Grid) (p : Pos) : Bool :=
  decide (0 ≤ p.1) && decide (p.1 < rowsOf g) && decide (0 ≤ p.2) && decide (p.2 < colsOf g)

/-- The lookup `grid[r][c]`. Every access the program performs is guarded by `inBnds`
(or by the position invariant), so the out-of-range default `W` is never
consulted on a real execution path. -/
def cellAt (g : Grid) (p : Pos) : Cell :=
  if inBnds g p then (g.getD p.1.toNat []).getD p.2.toNat Cell.W else Cell.W

/-- The Python rendering `str((r, c))` of a position tuple, e.g. `"(1, 1)"`. -/
def posStr (p : Pos) : String :=
  "(" ++ toString p.1 ++ ", " ++ toString p.2 ++ ")"

/-- The message `"ERROR: Invalid direction. Use NORTH, SOUTH, EAST, or WEST."` -/
def invalidDirectionMsg : String :=
  "ERROR: Invalid direction. Use NORTH, SOUTH, EAST, or WEST."

/-- The blocked-move observation of `move_agent`. -/
def blockedMsg : String :=
  "OBSERVATION: Movement blocked by a Wall or grid boundary. Position remains unchanged."

/-- The success observation of `move_agent` on entering the Treasure cell. -/
def goalFoundMsg : String :=
  "SUCCESS: GOAL FOUND. You have reached the Treasure!"

/-- The generic moved observation of `move_agent`. -/
def movedMsg (p : Pos) : String :=
  "OBSERVATION: Moved successfully. New position: " ++ posStr p ++ ". Area is Open."

/-- The Python `str.upper()` on ASCII text (`direction = direction.upper()`),
character by character. -/
def pyUpper (s : String) : String :=
  String.mk (s.data.map Char.toUpper)

/-- The method `SimpleEnvironment.move_agent`, as a function of the grid, the current
position and the direction string: returns the new position and the
observation text. -/
def move_agent (g : Grid) (pos : Pos) (direction : String) : Pos × String :=
  let d := pyUpper direction
  if d = "NORTH" then moveStep g pos (pos.1 - 1, pos.2)
  else if d = "SOUTH" then moveStep g pos (pos.1 + 1, pos.2)
  else if d = "EAST" then moveStep g pos (pos.1, pos.2 + 1)
  else if d = "WEST" then moveStep g pos (pos.1, pos.2 - 1)
  else (pos, invalidDirectionMsg)
where
  /-- The bounds-and-wall check and position update shared by the four
  direction branches of `move_agent`. -/
  moveStep (g : Grid) (pos newPos : Pos) : Pos × String :=
    if inBnds g newPos && decide (cellAt g newPos ≠ Cell.W) then
      (newPos, if cellAt g newPos = Cell.T then goalFoundMsg else movedMsg newPos)
    else
      (pos, blockedMsg)

/-- Python-dict insertion into an insertion-ordered association list:
an existing key keeps its place and gets the new value, a new key is
appended (`self.map_memory[pos] = observation`). -/
def dictInsert (m : List (String × String)) (k v : String) : List (String × String) :=
  match m with
  | [] => [(k, v)]
  | (k', v') :: rest => if k = k' then (k, v) :: rest else (k', v') :: dictInsert rest k v

/-- The mutable state of `SimpleEnvironment`: the grid (never written), the
agent position and the map memory of the agent. -/
structure Env where
  grid : Grid
  agent_pos : Pos
  map_memory : List (String × String)
deriving DecidableEq, Repr

/-- The method `SimpleEnvironment.get_pos`. -/
def get_pos (e : Env) : Env × String :=
  (e, posStr e.agent_pos)

/-- The method `SimpleEnvironment.update_map`. -/
def update_map (e : Env) (pos observation : String) : Env × String :=
  ({ e with map_memory := dictInsert e.map_memory pos observation },
   "OBSERVATION: Map memory updated for location " ++ pos ++ ".")

/-- The on-goal observation of `look_around`. -/
def lookGoalMsg : String := "SUCCESS: You are standing on the Treasure tile!"

/-- The method `SimpleEnvironment.look_around`. -/
def look_around (e : Env) : Env × String :=
  (e,
   if cellAt e.grid e.agent_pos = Cell.T then lookGoalMsg
   else "OBSERVATION: You are at " ++ posStr e.agent_pos ++ ". This area is Open.")

/-- The tool `move_agent` acting on the environment state. -/
def move_agent_env (e : Env) (direction : String) : Env × String :=
  let r := move_agent e.grid e.agent_pos direction
  ({ e with agent_pos := r.1 }, r.2)

/-- The concrete grid built by `SimpleEnvironment.__init__`. -/
def initialGrid : Grid :=
  [[Cell.W, Cell.W, Cell.W, Cell.W, Cell.W],
   [Cell.W, Cell.O, Cell.O, Cell.W, Cell.W],
   [Cell.W, Cell.O, Cell.W, Cell.O, Cell.T],
   [Cell.W, Cell.O, Cell.O, Cell.O, Cell.W],
   [Cell.W, Cell.W, Cell.W, Cell.W, Cell.W]]

/-- The freshly constructed environment: the 5x5 grid, agent at `(1, 1)`,
empty map memory. -/
def initialEnv : Env :=
  { grid := initialGrid, agent_pos := (1, 1), map_memory := [] }

/-- The four environment operations, named as in the design document
(`move`, `lookAround`, `recordObservation`, `getPosition`). -/
inductive ToolOp where
  | move (direction : String)
  | lookAround
  | recordObservation (pos observation : String)
  | getPosition
deriving DecidableEq, Repr

/-- Apply one environment operation. -/
def applyOp (e : Env) : ToolOp → Env × String
  | .move d => move_agent_env e d
  | .lookAround => look_around e
  | .recordObservation k v => update_map e k v
  | .getPosition => get_pos e

/-- Apply a sequence of environment operations, keeping the final state. -/
def applyOps (e : Env) (ops : List ToolOp) : Env :=
  ops.foldl (fun e' op => (applyOp e' op).1) e

/-! ## The BFS planner of `get_llm_response` -/

/-- Association-list lookup, modelling Python dict reads (`prev`, `prev_move`
and the direction table are all keyed lookups). -/
def alookup {α β : Type} [DecidableEq α] : List (α × β) → α → Option β
  | [], _ => none
  | (k, v) :: rest, a => if a = k then some v else alookup rest a

/-- The direction table of the BFS neighbour generator, in its iteration
order: `NORTH, SOUTH, EAST, WEST` with their `(dr, dc)` offsets. -/
def dirOffsets : List (String × (Int × Int)) :=
  [("NORTH", (-1, 0)), ("SOUTH", (1, 0)), ("EAST", (0, 1)), ("WEST", (0, -1))]

/-- Componentwise addition `(r + dr, c + dc)`. -/
def padd (p q : Pos) : Pos := (p.1 + q.1, p.2 + q.2)

/-- A single legal move in the sense of the planner: the direction must be one of
the four names and the destination `(r + dr, c + dc)` must be in bounds and
not a Wall. Returns the destination when legal. -/
def stepLegal (g : Grid) (p : Pos) (d : String) : Option Pos :=
  match alookup dirOffsets d with
  | none => none
  | some off =>
    let q := padd p off
    if inBnds g q && decide (cellAt g q ≠ Cell.W) then some q else none

/-- The generator `neighbors(pos)` of the BFS: the legal one-step destinations from `p`
paired with their direction names, in direction-table order. -/
def neighborsOf (g : Grid) (p : Pos) : List (Pos × String) :=
  dirOffsets.filterMap fun dof =>
    let q := padd p dof.2
    if inBnds g q && decide (cellAt g q ≠ Cell.W) then some (q, dof.1) else none

/-- The BFS bookkeeping `prev`: position to optional predecessor
(`none` = key absent, `some none` = the start, `some (some r)` = parent `r`). -/
abbrev PrevMap := List (Pos × Option Pos)

/-- The BFS bookkeeping `prev_move`: position to the direction that reached it. -/
abbrev MoveMap := List (Pos × String)

/-- The inner `for nbr, direction in neighbors(node)` loop of the BFS:
each not-yet-seen neighbour is recorded in `prev`/`prev_move` and appended
to the queue. -/
def expandNbrs (node : Pos) :
    List (Pos × String) → List Pos × PrevMap × MoveMap → List Pos × PrevMap × MoveMap
  | [], st => st
  | (nbr, d) :: rest, (q, prev, mv) =>
    if alookup prev nbr = none then
      expandNbrs node rest (q ++ [nbr], prev ++ [(nbr, some node)], mv ++ [(nbr, d)])
    else
      expandNbrs node rest (q, prev, mv)

/-- The `while q:` loop of the BFS, fuelled. Each iteration pops the queue
front; popping the target ends the search successfully, otherwise the
unseen neighbours of the popped node are enqueued. The fuel `bfsFuel` is proved
sufficient below, so the fuel-exhaustion branch is never taken. -/
def bfsLoop (g : Grid) (target : Pos) :
    Nat → List Pos → PrevMap → MoveMap → PrevMap × MoveMap × Bool
  | 0, _, prev, mv => (prev, mv, false)
  | _ + 1, [], prev, mv => (prev, mv, false)
  | fuel + 1, node :: q', prev, mv =>
    if node = target then (prev, mv, true)
    else
      let st := expandNbrs node (neighborsOf g node) (q', prev, mv)
      bfsLoop g target fuel st.1 st.2.1 st.2.2

/-- Fuel for `bfsLoop`: one more than the number of grid cells. The loop
pops one node per iteration and every pushed node is a fresh in-bounds key
of `prev`, so at most `1 + rows*cols` pops can ever happen. -/
def bfsFuel (g : Grid) : Nat := g.length * (g.headD []).length + 1

/-- The BFS of `get_llm_response`: queue seeded with the start position,
`prev = {start: None}`, `prev_move = {}`. -/
def bfsRun (g : Grid) (start target : Pos) : PrevMap × MoveMap × Bool :=
  bfsLoop g target (bfsFuel g) [start] [(start, none)] []

/-- The path-reconstruction loop: walk `prev` from the target back to the
start, collecting `prev_move` of each node. The source appends and reverses;
prepending while walking builds the same forward list. A missing key
(impossible under the loop invariant) or fuel exhaustion yields `none`. -/
def reconLoop (prev : PrevMap) (mv : MoveMap) :
    Nat → Pos → List String → Option (List String)
  | 0, _, _ => none
  | fuel + 1, cur, acc =>
    match alookup prev cur with
    | none => none
    | some none => some acc
    | some (some par) => reconLoop prev mv fuel par ((alookup mv cur).getD "" :: acc)

/-- The full planner path: BFS from `start`, then reconstruction when the
target was found (`path_dirs` of the source); `none` when no path exists. -/
def bfsPath (g : Grid) (start target : Pos) : Option (List String) :=
  let r := bfsRun g start target
  if r.2.2 then reconLoop r.1 r.2.1 (bfsFuel g) target [] else none

/-- The row-major Treasure scan
`[(r, c) for r in range(rows) for c in range(cols) if grid[r][c] == 'T']`. -/
def targetsOf (g : Grid) : List Pos :=
  (List.range g.length).flatMap fun r =>
    (List.range (g.headD []).length).filterMap fun c =>
      if cellAt g (Int.ofNat r, Int.ofNat c) = Cell.T then some (Int.ofNat r, Int.ofNat c)
      else none

/-- The cached plan of the planner and its owner position
(`get_llm_response._plan`, `get_llm_response._plan_owner`); `none` models
the attribute not existing yet. -/
abbrev Cache := Option (List String × Pos)

/-- The structured content of a `get_llm_response` message. -/
inductive LlmOut where
  | finalNoGoal
  | finalNoPath
  | finalSuccess
  | finalNoPlan
  | action (remaining : Nat) (dir : String)
deriving DecidableEq, Repr

/-- The decision logic of `get_llm_response` (the mock LLM), acting on the
grid and agent position of the environment and on the cached plan: scan for
Treasure tiles, BFS to the first one, reconstruct the direction list,
refresh the cache when its owner differs from the current position, then
emit the next step (or a final message). Returns the structured message
and the updated cache. -/
def get_llm_logic (g : Grid) (pos : Pos) (cache : Cache) : LlmOut × Cache :=
  match targetsOf g with
  | [] => (.finalNoGoal, cache)
  | t :: _ =>
    match bfsPath g pos t with
    | none => (.finalNoPath, cache)
    | some path_dirs =>
      let c :=
        match cache with
        | none => (path_dirs, pos)
        | some (pl, owner) => if owner ≠ pos then (path_dirs, pos) else (pl, owner)
      match c.1 with
      | [] => (if cellAt g pos = Cell.T then .finalSuccess else .finalNoPlan, some c)
      | d :: rest => (.action rest.length d, some (rest, c.2))

/-- The exact message text produced for each structured outcome (the
`thought`/`action`/`action_input` lines or the `Final Answer:` returns of
the source). -/
def renderLlm : LlmOut → String
  | .finalNoGoal =>
      "Final Answer: No Treasure tile (\x27T\x27) present in the environment grid."
  | .finalNoPath =>
      "Final Answer: No path to Treasure found (blocked by walls)."
  | .finalSuccess =>
      "Final Answer: SUCCESS - Agent reached the Treasure."
  | .finalNoPlan =>
      "Final Answer: No further steps in plan and not on Treasure."
  | .action remaining d =>
      "Thought: I computed a path of " ++ toString (remaining + 1) ++
      " steps to the Treasure. Next move is " ++ d ++
      ".\nAction: move_agent\nAction Input: " ++ d

/-- The planner entry `get_llm_response(history)`: the `history` argument is accepted and
ignored by the source; the output depends only on the environment state and
the cached plan. -/
def get_llm_response (history : List (String × String)) (g : Grid) (pos : Pos)
    (cache : Cache) : String × Cache :=
  let r := get_llm_logic g pos cache
  (renderLlm r.1, r.2)

/-- The emitted move sequence of the planner: one decision request per step, each
emitted direction replayed against the environment through `move_agent`
before the next request, exactly as the agent loop does. The cache is
threaded through the requests. -/
def agentSteps (g : Grid) : Nat → Pos → Cache → List String
  | 0, _, _ => []
  | fuel + 1, pos, cache =>
    match get_llm_logic g pos cache with
    | (.action _ d, cache') => d :: agentSteps g fuel (move_agent g pos d).1 cache'
    | _ => []

/-- Replay a direction list from a position through `move_agent`, keeping
the final position. -/
def replayPos (g : Grid) (p : Pos) (ds : List String) : Pos :=
  ds.foldl (fun q d => (move_agent g q d).1) p

/-! ## The textual protocol: `re.search` embeddings and the agent loop -/

/-- The Python class `\s` on ASCII text. -/
def isSpaceChar (c : Char) : Bool :=
  c = ' ' || c = '\t' || c = '\n' || c = '\r' || c = '\x0b' || c = '\x0c'

/-- The Python class `\w` on ASCII text (letters, digits, underscore). -/
def isWordChar (c : Char) : Bool :=
  c.isAlphanum || c = '_'

/-- The Python `str.strip()` on ASCII text. -/
def pyStrip (s : String) : String :=
  String.mk (((s.data.dropWhile isSpaceChar).reverse.dropWhile isSpaceChar).reverse)

/-- The Python `str.startswith`. -/
def pyStartsWith (s pre : String) : Bool :=
  pre.data.isPrefixOf s.data

/-- The Python `sub in s` substring test. -/
def hasSub (s sub : List Char) : Bool :=
  match s with
  | [] => sub.isEmpty
  | _ :: t => sub.isPrefixOf s || hasSub t sub

/-- One attempt of the pattern `Action:\s*(\w+)` anchored at the head of
`s`: the literal, then maximal whitespace, then a nonempty maximal word
(`\s` and `\w` are disjoint, so no backtracking arises). Returns the
captured word. -/
def matchActionAt (s : List Char) : Option (List Char) :=
  if "Action:".data.isPrefixOf s then
    let word := ((s.drop 7).dropWhile isSpaceChar).takeWhile isWordChar
    if word = [] then none else some word
  else none

/-- The search `re.search(r"Action:\s*(\w+)", s)`: try the pattern at each position,
left to right. -/
def searchActionName : List Char → Option (List Char)
  | [] => matchActionAt []
  | c :: t =>
    match matchActionAt (c :: t) with
    | some w => some w
    | none => searchActionName t

/-- The `\s*(.+)` tail of the input pattern at a position: greedy
whitespace, backtracking just enough for `.+` (one or more non-newline
characters, greedy) to match. With `w` the maximal whitespace run, either a
character follows `w` (it is non-newline, `.+` runs to the line end), or
the match backtracks to the last non-newline character inside `w` (all
later characters of `w` being newlines, the capture is that single
character), or there is no match. -/
def matchWsDot (rest : List Char) : Option (List Char) :=
  let r := rest.dropWhile isSpaceChar
  if r = [] then
    match ((rest.takeWhile isSpaceChar).filter (fun c => c ≠ '\n')).getLast? with
    | some c => some [c]
    | none => none
  else
    some (r.takeWhile (fun c => c ≠ '\n'))

/-- One attempt of `Action Input:\s*(.+)` anchored at the head of `s`. -/
def matchInputAt (s : List Char) : Option (List Char) :=
  if "Action Input:".data.isPrefixOf s then matchWsDot (s.drop 13) else none

/-- The search `re.search(r"Action Input:\s*(.+)", s)`. -/
def searchActionInput : List Char → Option (List Char)
  | [] => matchInputAt []
  | c :: t =>
    match matchInputAt (c :: t) with
    | some w => some w
    | none => searchActionInput t

/-- The `action_input.split(',', 1)` preprocessing of `update_map` dispatch:
position key and observation text, both stripped, with the `"Unknown"`
placeholder when there is no comma. -/
def splitUpdateArgs (input : String) : String × String :=
  let before := input.data.takeWhile (fun c => c ≠ ',')
  let rest := input.data.dropWhile (fun c => c ≠ ',')
  match rest with
  | [] => (pyStrip (String.mk before), "Unknown")
  | _ :: aft => (pyStrip (String.mk before), pyStrip (String.mk aft))

/-- The unknown-tool observation
built as ERROR-Tool-not-found with the action name quoted inside. -/
def unknownToolMsg (action : String) : String :=
  "ERROR: Tool \x27" ++ action ++ "\x27 not found in AVAILABLE_TOOLS."

/-- The `TOOL ERROR` observation produced when invoking a recognized tool
raises: dispatching `look_around` or `get_pos` through the loop always
passes them the one-string `action_input`, which their zero-argument
signatures reject with a `TypeError`, caught by the `except` block. The
exact Python `TypeError` wording is interpreter-dependent; no theorem
depends on this text. -/
def arityErrorMsg (action : String) : String :=
  "TOOL ERROR: Failed to execute tool \x27" ++ action ++ "\x27. Error: " ++
  action ++ "() takes 1 positional argument but 2 were given"

/-- The tool-dispatch block of `run_agent_loop` (steps 3 of the loop body):
`AVAILABLE_TOOLS` holds `move_agent`, `look_around`, `update_map` and
`get_pos`; `update_map` gets the comma-split pair, every other known tool is
called on the single input string; unknown names produce the error
observation without touching the environment. -/
def dispatchTool (e : Env) (action input : String) : Env × String :=
  if action = "move_agent" then move_agent_env e input
  else if action = "look_around" then (e, arityErrorMsg "look_around")
  else if action = "update_map" then
    let args := splitUpdateArgs input
    update_map e args.1 args.2
  else if action = "get_pos" then (e, arityErrorMsg "get_pos")
  else (e, unknownToolMsg action)

/-- The system prompt seeded into the conversation history. -/
def SYSTEM_PROMPT : String :=
  "\nYou are an **Autonomous Explorer Agent** operating in a 5x5 grid world.\nYour sole goal is to find the \x27T\x27 (Treasure) and report the SUCCESS message.\nYour current location is always (R, C). You start at (1, 1).\n\nYou MUST build an explicit map in your Thought process based on past Observations.\nYou must use the `update_map` tool to log every unique location and observation to build your persistent memory.\n\nYou must follow the **ReAct pattern** (Thought -> Action -> Observation) in a loop.\n\n# Available Tools:\n# move_agent(direction: str) -> Attempts to move the agent. Directions: NORTH, SOUTH, EAST, or WEST. Returns an OBSERVATION message.\n# look_around() -> Returns the state of your current location. Useful for verifying the cell type.\n# update_map(pos: str, observation: str) -> Logs a key-value pair into your memory. Use get_pos() for the \x27pos\x27 argument.\n# get_pos() -> Returns your current position as a string tuple, e.g., \x27(1, 1)\x27.\n\n# Output Format:\nYour response MUST strictly use the following format for tool calls:\nThought: [Your reasoning based on the map memory and current observation. Why is this the best move?]\nAction: [Tool Name]\nAction Input: [Tool Input (MUST be a single string for tool functions)]\n\nIf you find the Treasure, the response from move_agent will be \"SUCCESS...\". At that point, your final response MUST be:\nFinal Answer: [Report the success and the final path, if possible.]\n"

/-- The whole mutable state threaded through the agent loop: the shared
environment, the cached plan of the planner, and the conversation history as a
list of `(role, content)` entries. -/
structure LoopState where
  env : Env
  cache : Cache
  history : List (String × String)
deriving DecidableEq, Repr

/-- The outcome of one loop iteration. -/
inductive IterOut where
  | final (msg : String)
  | malformed
  | step (action input obs : String) (success : Bool)
deriving DecidableEq, Repr

/-- A decision source feeding the loop: from the loop state, a message and
an updated plan cache. The program instantiates it with
`get_llm_response`; the loop body itself (below) is decision-source
agnostic, as the design requires. -/
abbrev DecisionSource := LoopState → String × Cache

/-- One iteration of the `for step in range(max_steps)` body of
`run_agent_loop`: request a message and append it to the history; a
`Final Answer:` message terminates; otherwise locate the `Action` and
`Action Input` markers (terminating as malformed when either is missing),
dispatch the tool, append the observation, and report whether the
observation contains `SUCCESS`. -/
def loopIter (f : DecisionSource) (st : LoopState) : LoopState × IterOut :=
  let r := f st
  let llm_output := r.1
  let hist1 := st.history ++ [("assistant", llm_output)]
  if pyStartsWith llm_output "Final Answer:" then
    ({ st with cache := r.2, history := hist1 }, .final llm_output)
  else
    match searchActionName llm_output.data, searchActionInput llm_output.data with
    | some aw, some iw =>
      let action := pyStrip (String.mk aw)
      let input := pyStrip (String.mk iw)
      let d := dispatchTool st.env action input
      let hist2 := hist1 ++ [("user", "Observation: " ++ d.2)]
      ({ env := d.1, cache := r.2, history := hist2 },
       .step action input d.2 (hasSub d.2.data "SUCCESS".data))
    | _, _ => ({ st with cache := r.2, history := hist1 }, .malformed)

/-- How a run of the loop ended: a planner `Final Answer`, a protocol
failure, the `SUCCESS` substring observed (goal reached), or the step
budget exhausted without any break. -/
inductive RunOutcome where
  | finalAnswer (msg : String)
  | protocolError
  | goalSuccess
  | exhausted
deriving DecidableEq, Repr

/-- The `for step in range(max_steps)` loop: recursion on the remaining
budget, collecting the dispatched `(action, input)` pairs and counting the
executed iterations. -/
def runLoop (f : DecisionSource) :
    Nat → LoopState → LoopState × RunOutcome × List (String × String) × Nat
  | 0, st => (st, .exhausted, [], 0)
  | n + 1, st =>
    match loopIter f st with
    | (st', .final m) => (st', .finalAnswer m, [], 1)
    | (st', .malformed) => (st', .protocolError, [], 1)
    | (st', .step a i _ true) => (st', .goalSuccess, [(a, i)], 1)
    | (st', .step a i _ false) =>
      let r := runLoop f n st'
      (r.1, r.2.1, (a, i) :: r.2.2.1, r.2.2.2 + 1)

/-- The concrete decision source of the program: `get_llm_response` reading the shared
environment and its own cached plan. -/
def llmSource : DecisionSource := fun st =>
  get_llm_response st.history st.env.grid st.env.agent_pos st.cache

/-- The conversation history `run_agent_loop` starts from. -/
def initialHistory : List (String × String) :=
  [("system", SYSTEM_PROMPT),
   ("user", "Start exploration now. Find the Treasure efficiently.")]

/-- The loop state at the top of `run_agent_loop`: fresh environment, no
cached plan, seeded history. -/
def initialState : LoopState :=
  { env := initialEnv, cache := none, history := initialHistory }

/-- The loop `run_agent_loop(max_steps)` on the environment and planner of the program. -/
def run_agent_loop (max_steps : Nat) :
    LoopState × RunOutcome × List (String × String) × Nat :=
  runLoop llmSource max_steps initialState

/-! ## Specification layer: legal paths, reachability, shortest distance -/

/-- A direction list is a legal obstacle-avoiding walk from `p` to `t`:
every step is a legal planner move and the walk ends at `t`. -/
def pathOkB (g : Grid) : Pos → List String → Pos → Bool
  | p, [], t => decide (p = t)
  | p, d :: ds, t =>
    match stepLegal g p d with
    | some q => pathOkB g q ds t
    | none => false

/-- Position `t` is reachable from `s` by legal moves. -/
def Reach (g : Grid) (s t : Pos) : Prop :=
  ∃ ds, pathOkB g s ds t = true

/-- Number `n` is the BFS shortest-path distance from `s` to `t`: some legal walk
of length `n` reaches `t` and no shorter one does. -/
def DistIs (g : Grid) (s t : Pos) (n : Nat) : Prop :=
  (∃ ds, ds.length = n ∧ pathOkB g s ds t = true) ∧
  ∀ ds, pathOkB g s ds t = true → n ≤ ds.length

/-- All positions reachable from members of `S` in one legal move. -/
def stepSet (g : Grid) (S : List Pos) : List Pos :=
  S.flatMap fun p => (neighborsOf g p).map Prod.fst

/-- The ball of radius `n`: all positions reachable from `s` in at most `n`
legal moves (cumulative, deduplicated). -/
def ballList (g : Grid) (s : Pos) : Nat → List Pos
  | 0 => [s]
  | n + 1 => (ballList g s n ++ stepSet g (ballList g s n)).dedup

/-- Classification of a `move_agent` call into the four observation kinds. -/
inductive MoveKind where
  | success
  | moved
  | blocked
  | invalid
deriving DecidableEq, Repr

/-- The observation kind a `move_agent` call produces, following exactly the
branch structure of the source. -/
def moveKind (g : Grid) (pos : Pos) (direction : String) : MoveKind :=
  let d := pyUpper direction
  if d = "NORTH" then stepKind g (pos.1 - 1, pos.2)
  else if d = "SOUTH" then stepKind g (pos.1 + 1, pos.2)
  else if d = "EAST" then stepKind g (pos.1, pos.2 + 1)
  else if d = "WEST" then stepKind g (pos.1, pos.2 - 1)
  else .invalid
where
  /-- Kind of the shared bounds-and-wall branch. -/
  stepKind (g : Grid) (q : Pos) : MoveKind :=
    if inBnds g q && decide (cellAt g q ≠ Cell.W) then
      (if cellAt g q = Cell.T then .success else .moved)
    else .blocked

/-- The observation text of each kind (`p` is the position after the call;
only the moved observation mentions it). -/
def renderMove (k : MoveKind) (p : Pos) : String :=
  match k with
  | .success => goalFoundMsg
  | .moved => movedMsg p
  | .blocked => blockedMsg
  | .invalid => invalidDirectionMsg

/-- The position invariant: the agent is in bounds and not on a Wall. -/
def posOk (e : Env) : Prop :=
  inBnds e.grid e.agent_pos = true ∧ cellAt e.grid e.agent_pos ≠ Cell.W

/-- The in-bounds positions of a grid, enumerated row major. -/
def allPos (g : Grid) : List Pos :=
  (List.range g.length).flatMap fun r =>
    (List.range (g.headD []).length).map fun c => (Int.ofNat r, Int.ofNat c)

/-- A position is a key of the `prev` dictionary. -/
def discovered (prev : PrevMap) (p : Pos) : Prop :=
  alookup prev p ≠ none

/-- The number of in-bounds positions not yet keys of `prev`; together with
the queue length this bounds the remaining BFS iterations. -/
def absentCount (g : Grid) (prev : PrevMap) : Nat :=
  ((allPos g).filter (fun p => decide (alookup prev p = none))).length

/-- Soundness of the BFS bookkeeping: the `prev` chain of every key is a
legal walk from `s` whose length is the exact shortest distance of the key, with
`prev_move` holding the direction of each step. -/
structure PrevOk (g : Grid) (s : Pos) (prev : PrevMap) (mv : MoveMap) : Prop where
  root : alookup prev s = some none
  root_only : ∀ p, alookup prev p = some none → p = s
  parent : ∀ p r, alookup prev p = some (some r) →
    ∃ d n, alookup mv p = some d ∧ stepLegal g r d = some p ∧
      DistIs g s r n ∧ DistIs g s p (n + 1) ∧ alookup prev r ≠ none
  mdom : ∀ p, alookup prev p = none → alookup mv p = none

/-- The queue-shape part of the BFS loop invariant at level `d`: the queue
is a block of distance-`d` nodes followed by a block of distance-`d+1`
nodes, all discovered; everything at distance `≤ d` is discovered; an
undiscovered node at distance `d+1` has an unexpanded distance-`d`
predecessor in the queue; every discovered distance-`d+1` node still awaits
its turn in the second block; nothing beyond distance `d+1` is discovered;
and the target, once discovered, is still in the queue (the loop would have
stopped on popping it). -/
structure QInv (g : Grid) (s target : Pos) (prev : PrevMap) (d : Nat)
    (A B : List Pos) : Prop where
  distA : ∀ a ∈ A, DistIs g s a d ∧ discovered prev a
  distB : ∀ b ∈ B, DistIs g s b (d + 1) ∧ discovered prev b
  cov : ∀ p n, DistIs g s p n → n ≤ d → discovered prev p
  frontier : ∀ p, DistIs g s p (d + 1) → ¬ discovered prev p →
    ∃ a ∈ A, ∃ dd, stepLegal g a dd = some p
  pending : ∀ p, discovered prev p → DistIs g s p (d + 1) → p ∈ B
  distBound : ∀ p n, discovered prev p → DistIs g s p n → n ≤ d + 1
  targetQ : discovered prev target → target ∈ A ++ B

/-- The full BFS loop invariant. -/
def BfsInv (g : Grid) (s target : Pos) (q : List Pos) (prev : PrevMap)
    (mv : MoveMap) : Prop :=
  PrevOk g s prev mv ∧ ∃ d A B, q = A ++ B ∧ QInv g s target prev d A B

/-- Replay a direction list against the environment through `move_agent`,
keeping the final environment and the last observation. -/
def replayEnv (e : Env) (ds : List String) : Env × String :=
  ds.foldl (fun r d => move_agent_env r.1 d) (e, "")

/-! ## Theorems -/

/-- Two strings differing at some character index differ. -/
theorem string_ne_of_get (s t : String) (i : Nat)
    (h : s.data.get? i ≠ t.data.get? i) : s ≠ t :=
  fun he => h (by rw [he])

/-- The moved observation never coincides with the goal-found observation. -/
theorem movedMsg_ne_goalFound (p : Pos) : movedMsg p ≠ goalFoundMsg := by
  apply string_ne_of_get _ _ 0
  show (("OBSERVATION: Moved successfully. New position: " ++
    (posStr p ++ ". Area is Open.")) : String).data.get? 0 ≠ _
  rw [String.data_append, List.get?_append (by decide)]
  decide

/-- The moved observation never coincides with the blocked observation. -/
theorem movedMsg_ne_blocked (p : Pos) : movedMsg p ≠ blockedMsg := by
  apply string_ne_of_get _ _ 17
  show (("OBSERVATION: Moved successfully. New position: " ++
    (posStr p ++ ". Area is Open.")) : String).data.get? 17 ≠ _
  rw [String.data_append, List.get?_append (by decide)]
  decide

/-- The moved observation never coincides with the invalid-direction
observation. -/
theorem movedMsg_ne_invalid (p : Pos) : movedMsg p ≠ invalidDirectionMsg := by
  apply string_ne_of_get _ _ 0
  show (("OBSERVATION: Moved successfully. New position: " ++
    (posStr p ++ ". Area is Open.")) : String).data.get? 0 ≠ _
  rw [String.data_append, List.get?_append (by decide)]
  decide

/-- The shared branch of `move_agent` and its kind: the observation is the
rendering of that kind, destination `q ≠ pos` makes the position change equivalent
to a success/moved kind, and the branch never reports an invalid direction. -/
theorem moveStep_facts (g : Grid) (pos q : Pos) (hq : q ≠ pos) :
    (move_agent.moveStep g pos q).2 =
      renderMove (moveKind.stepKind g q) (move_agent.moveStep g pos q).1 ∧
    ((move_agent.moveStep g pos q).1 ≠ pos ↔
      (moveKind.stepKind g q = .success ∨ moveKind.stepKind g q = .moved)) ∧
    moveKind.stepKind g q ≠ .invalid := by
  unfold move_agent.moveStep moveKind.stepKind
  by_cases hb : (inBnds g q && decide (cellAt g q ≠ Cell.W)) = true
  · rw [if_pos hb, if_pos hb]
    by_cases ht : cellAt g q = Cell.T
    · rw [if_pos ht, if_pos ht]
      exact ⟨rfl, by simp [hq], by simp⟩
    · rw [if_neg ht, if_neg ht]
      exact ⟨rfl, by simp [hq], by simp⟩
  · rw [if_neg hb, if_neg hb]
    exact ⟨rfl, by simp, by simp⟩

/-- C3: every `move_agent` call is classified into exactly one of the four
observation kinds (success-on-goal, moved, blocked, invalid-direction),
whose four observation texts are pairwise distinct; the direction string is
matched by uppercasing it against the four cardinal names; and the position
changes if and only if the kind is success or moved. -/
theorem claim_C3_move_outcomes (g : Grid) (pos : Pos) (direction : String) :
    ((move_agent g pos direction).2 =
      renderMove (moveKind g pos direction) (move_agent g pos direction).1) ∧
    ((move_agent g pos direction).1 ≠ pos ↔
      (moveKind g pos direction = .success ∨ moveKind g pos direction = .moved)) ∧
    (moveKind g pos direction = .invalid ↔
      pyUpper direction ∉ (["NORTH", "SOUTH", "EAST", "WEST"] : List String)) ∧
    (∀ k k' : MoveKind, k ≠ k' → renderMove k (move_agent g pos direction).1 ≠
      renderMove k' (move_agent g pos direction).1) := by
  have hdistinct : ∀ k k' : MoveKind, k ≠ k' →
      renderMove k (move_agent g pos direction).1 ≠
        renderMove k' (move_agent g pos direction).1 := by
    intro k k' hkk
    cases k <;> cases k' <;>
      simp only [renderMove] <;>
      first
        | exact absurd rfl hkk
        | decide
        | exact movedMsg_ne_goalFound _
        | exact movedMsg_ne_blocked _
        | exact movedMsg_ne_invalid _
        | exact fun h => movedMsg_ne_goalFound _ h.symm
        | exact fun h => movedMsg_ne_blocked _ h.symm
        | exact fun h => movedMsg_ne_invalid _ h.symm
  have main : ((move_agent g pos direction).2 =
      renderMove (moveKind g pos direction) (move_agent g pos direction).1) ∧
      ((move_agent g pos direction).1 ≠ pos ↔
        (moveKind g pos direction = .success ∨ moveKind g pos direction = .moved)) ∧
      (moveKind g pos direction = .invalid ↔
        pyUpper direction ∉ (["NORTH", "SOUTH", "EAST", "WEST"] : List String)) := by
    simp only [move_agent, moveKind]
    split_ifs with h1 h2 h3 h4
    · have hq : ((pos.1 - 1, pos.2) : Pos) ≠ pos := by
        intro h; have := congrArg Prod.fst h; simp only at this; omega
      obtain ⟨e1, e2, e3⟩ := moveStep_facts g pos _ hq
      exact ⟨e1, e2, iff_of_false e3 (by simp [h1])⟩
    · have hq : ((pos.1 + 1, pos.2) : Pos) ≠ pos := by
        intro h; have := congrArg Prod.fst h; simp only at this; omega
      obtain ⟨e1, e2, e3⟩ := moveStep_facts g pos _ hq
      exact ⟨e1, e2, iff_of_false e3 (by simp [h2])⟩
    · have hq : ((pos.1, pos.2 + 1) : Pos) ≠ pos := by
        intro h; have := congrArg Prod.snd h; simp only at this; omega
      obtain ⟨e1, e2, e3⟩ := moveStep_facts g pos _ hq
      exact ⟨e1, e2, iff_of_false e3 (by simp [h3])⟩
    · have hq : ((pos.1, pos.2 - 1) : Pos) ≠ pos := by
        intro h; have := congrArg Prod.snd h; simp only at this; omega
      obtain ⟨e1, e2, e3⟩ := moveStep_facts g pos _ hq
      exact ⟨e1, e2, iff_of_false e3 (by simp [h4])⟩
    · exact ⟨rfl, iff_of_false (fun h => h rfl) (by simp),
        iff_of_true rfl (by simp [h1, h2, h3, h4])⟩
  exact ⟨main.1, main.2.1, main.2.2, hdistinct⟩

/-- Function `move_agent` either leaves the position unchanged or moves it to an
in-bounds non-Wall cell. -/
theorem move_agent_pos_cases (g : Grid) (pos : Pos) (d : String) :
    (move_agent g pos d).1 = pos ∨
    (inBnds g (move_agent g pos d).1 = true ∧ cellAt g (move_agent g pos d).1 ≠ Cell.W) := by
  have hstep : ∀ q : Pos, (move_agent.moveStep g pos q).1 = pos ∨
      (inBnds g (move_agent.moveStep g pos q).1 = true ∧
        cellAt g (move_agent.moveStep g pos q).1 ≠ Cell.W) := by
    intro q
    unfold move_agent.moveStep
    by_cases hb : (inBnds g q && decide (cellAt g q ≠ Cell.W)) = true
    · rw [if_pos hb]
      have hb' : inBnds g q = true ∧ cellAt g q ≠ Cell.W := by simpa using hb
      exact Or.inr hb'
    · rw [if_neg hb]
      exact Or.inl rfl
  simp only [move_agent]
  split_ifs <;> first | exact hstep _ | exact Or.inl rfl

/-- Function `move_agent` leaves the grid and the map memory untouched; `update_map`
leaves the grid and the position untouched. -/
theorem applyOp_frames (e : Env) (op : ToolOp) :
    (applyOp e op).1.grid = e.grid ∧
    ((∀ k v, op ≠ ToolOp.recordObservation k v) →
      (applyOp e op).1.map_memory = e.map_memory) := by
  cases op with
  | move d => exact ⟨rfl, fun _ => rfl⟩
  | lookAround => exact ⟨rfl, fun _ => rfl⟩
  | getPosition => exact ⟨rfl, fun _ => rfl⟩
  | recordObservation k v => exact ⟨rfl, fun h => absurd rfl (h k v)⟩

/-- C8: `lookAround` and `currentPosition` return the state unchanged;
`move` changes neither the grid nor the memory log; `recordObservation`
changes neither the grid nor the position; and over any operation sequence
containing no `recordObservation`, the memory log is unchanged. -/
theorem claim_C8_side_effect_confinement (e : Env) :
    (look_around e).1 = e ∧
    (get_pos e).1 = e ∧
    (∀ d, (move_agent_env e d).1.grid = e.grid ∧
      (move_agent_env e d).1.map_memory = e.map_memory) ∧
    (∀ k v, (update_map e k v).1.grid = e.grid ∧
      (update_map e k v).1.agent_pos = e.agent_pos) ∧
    (∀ ops : List ToolOp, (∀ op ∈ ops, ∀ k v, op ≠ ToolOp.recordObservation k v) →
      (applyOps e ops).map_memory = e.map_memory) := by
  refine ⟨rfl, rfl, fun d => ⟨rfl, rfl⟩, fun k v => ⟨rfl, rfl⟩, ?_⟩
  intro ops
  induction ops generalizing e with
  | nil => intro _; rfl
  | cons op rest ih =>
    intro hops
    have h1 : (applyOp e op).1.map_memory = e.map_memory :=
      (applyOp_frames e op).2 (hops op (List.mem_cons_self op rest))
    have h2 := ih (applyOp e op).1 (fun o ho k v => hops o (List.mem_cons_of_mem op ho) k v)
    calc (applyOps e (op :: rest)).map_memory
        = (applyOps (applyOp e op).1 rest).map_memory := rfl
      _ = (applyOp e op).1.map_memory := h2
      _ = e.map_memory := h1

/-- C8 witness at a concrete operation sequence. -/
theorem claim_C8_side_effect_confinement_witness :
    (applyOps initialEnv [ToolOp.move "EAST", ToolOp.lookAround]).map_memory =
      initialEnv.map_memory :=
  (claim_C8_side_effect_confinement initialEnv).2.2.2.2
    [ToolOp.move "EAST", ToolOp.lookAround]
    (by intro op hop k v
        simp only [List.mem_cons, List.not_mem_nil, or_false] at hop
        rcases hop with h | h <;> subst h <;> simp)

/-- One operation preserves the position invariant and the grid. -/
theorem applyOp_posOk (e : Env) (op : ToolOp) (h : posOk e) :
    posOk (applyOp e op).1 := by
  cases op with
  | move d =>
    rcases move_agent_pos_cases e.grid e.agent_pos d with hsame | hgood
    · exact (by simpa [applyOp, move_agent_env, posOk, hsame] using h)
    · simpa [applyOp, move_agent_env, posOk] using hgood
  | lookAround => exact h
  | recordObservation k v => exact h
  | getPosition => exact h

/-- C9: starting from the initial environment (agent at `(1, 1)`), after any
sequence of tool operations the agent position is inside the grid bounds
and the cell there is not a Wall. -/
theorem claim_C9_position_invariant (ops : List ToolOp) :
    inBnds (applyOps initialEnv ops).grid (applyOps initialEnv ops).agent_pos = true ∧
    cellAt (applyOps initialEnv ops).grid (applyOps initialEnv ops).agent_pos ≠ Cell.W := by
  have base : posOk initialEnv := by constructor <;> decide
  have : ∀ (e : Env), posOk e → posOk (applyOps e ops) := by
    induction ops with
    | nil => exact fun e h => h
    | cons op rest ih => exact fun e h => ih (applyOp e op).1 (applyOp_posOk e op h)
  exact this initialEnv base

/-- C10: the decision source ignores the conversation history: with the same
grid, agent position and cached plan, any two histories yield the identical
message and identical cache update. -/
theorem claim_C10_history_independence (h₁ h₂ : List (String × String))
    (g : Grid) (pos : Pos) (cache : Cache) :
    get_llm_response h₁ g pos cache = get_llm_response h₂ g pos cache := rfl

/-! ### Association lists and the neighbour relation -/

/-- A successful lookup is a member. -/
theorem alookup_mem {α β : Type} [DecidableEq α] (l : List (α × β)) (a : α) (b : β)
    (h : alookup l a = some b) : (a, b) ∈ l := by
  induction l with
  | nil => cases h
  | cons kv rest ih =>
    rcases kv with ⟨k, v⟩
    unfold alookup at h
    by_cases hk : a = k
    · rw [if_pos hk] at h
      injection h with h
      rw [hk, ← h]
      exact List.mem_cons_self _ _
    · rw [if_neg hk] at h
      exact List.mem_cons_of_mem _ (ih h)

/-- Predicate `stepLegal` and the BFS neighbour generator agree. -/
theorem stepLegal_iff_neighbor (g : Grid) (p q : Pos) (d : String) :
    stepLegal g p d = some q ↔ (q, d) ∈ neighborsOf g p := by
  constructor
  · intro h
    unfold stepLegal at h
    cases halo : alookup dirOffsets d with
    | none => rw [halo] at h; cases h
    | some off =>
      rw [halo] at h
      dsimp only at h
      by_cases hg : (inBnds g (padd p off) && decide (cellAt g (padd p off) ≠ Cell.W)) = true
      · rw [if_pos hg] at h
        injection h with h
        unfold neighborsOf
        apply List.mem_filterMap.mpr
        refine ⟨(d, off), alookup_mem _ _ _ halo, ?_⟩
        dsimp only
        rw [if_pos hg, h]
      · rw [if_neg hg] at h; cases h
  · intro h
    unfold neighborsOf at h
    rcases List.mem_filterMap.mp h with ⟨dof, hdof, heq⟩
    dsimp only at heq
    by_cases hg : (inBnds g (padd p dof.2) && decide (cellAt g (padd p dof.2) ≠ Cell.W)) = true
    · rw [if_pos hg] at heq
      injection heq with heq
      have h1 : padd p dof.2 = q := congrArg Prod.fst heq
      have h2 : dof.1 = d := congrArg Prod.snd heq
      subst h2
      have halo : alookup dirOffsets dof.1 = some dof.2 := by
        unfold dirOffsets at hdof
        fin_cases hdof <;> decide
      unfold stepLegal
      rw [halo]
      dsimp only
      rw [if_pos hg, h1]
    · rw [if_neg hg] at heq; cases heq

/-! ### Reachability balls and shortest-distance lower bounds -/

/-- Legal one-step successors of a member of `S` are in `stepSet g S`. -/
theorem mem_stepSet (g : Grid) (S : List Pos) (p q : Pos) (d : String)
    (hp : p ∈ S) (hs : stepLegal g p d = some q) : q ∈ stepSet g S := by
  unfold stepSet
  apply List.mem_flatMap.mpr
  exact ⟨p, hp, List.mem_map.mpr ⟨(q, d), (stepLegal_iff_neighbor g p q d).mp hs, rfl⟩⟩

/-- The ball grows with the radius. -/
theorem ball_succ_mem (g : Grid) (s : Pos) (n : Nat) (p : Pos)
    (h : p ∈ ballList g s n) : p ∈ ballList g s (n + 1) := by
  unfold ballList
  exact List.mem_dedup.mpr (List.mem_append.mpr (Or.inl h))

/-- A legal step from inside the radius-`n` ball lands in the radius-`n+1`
ball. -/
theorem ball_step (g : Grid) (s : Pos) (n : Nat) (p q : Pos) (d : String)
    (hp : p ∈ ballList g s n) (hs : stepLegal g p d = some q) :
    q ∈ ballList g s (n + 1) := by
  unfold ballList
  exact List.mem_dedup.mpr (List.mem_append.mpr (Or.inr (mem_stepSet g _ p q d hp hs)))

/-- Walking `ds` from inside the radius-`n` ball ends inside the
radius-`n + |ds|` ball. -/
theorem ball_sound (g : Grid) (s : Pos) :
    ∀ (ds : List String) (p t : Pos) (n : Nat), pathOkB g p ds t = true →
      p ∈ ballList g s n → t ∈ ballList g s (n + ds.length) := by
  intro ds
  induction ds with
  | nil =>
    intro p t n h hp
    have : p = t := of_decide_eq_true h
    simpa [this] using hp
  | cons d ds ih =>
    intro p t n h hp
    unfold pathOkB at h
    cases hs : stepLegal g p d with
    | none => rw [hs] at h; cases h
    | some q =>
      rw [hs] at h
      have hq := ball_step g s n p q d hp hs
      have := ih q t (n + 1) h hq
      simpa [Nat.add_assoc, Nat.add_comm 1 ds.length] using this

/-- The endpoint of a legal walk from `s` lies in the ball of its length. -/
theorem path_end_ball (g : Grid) (s t : Pos) (ds : List String)
    (h : pathOkB g s ds t = true) : t ∈ ballList g s ds.length := by
  have := ball_sound g s ds s t 0 h (by unfold ballList; exact List.mem_singleton.mpr rfl)
  simpa using this

/-- Balls are monotone in the radius. -/
theorem ball_le (g : Grid) (s : Pos) {m n : Nat} (hmn : m ≤ n) (p : Pos)
    (h : p ∈ ballList g s m) : p ∈ ballList g s n := by
  induction n with
  | zero => simpa [Nat.le_zero.mp hmn] using h
  | succ k ih =>
    rcases Nat.lt_or_ge m (k + 1) with hlt | hge
    · exact ball_succ_mem g s k p (ih (Nat.lt_succ_iff.mp hlt))
    · have : m = k + 1 := Nat.le_antisymm hmn hge
      simpa [this] using h

/-- No legal walk from `(1, 1)` reaches the Treasure cell `(2, 4)` of the
grid of the program in fewer than 6 moves. -/
theorem init_dist_lower (ds : List String)
    (h : pathOkB initialGrid (1, 1) ds ((2 : Int), (4 : Int)) = true) :
    6 ≤ ds.length := by
  by_contra hlt
  push_neg at hlt
  have hin := path_end_ball initialGrid (1, 1) _ ds h
  have h5 : ((2 : Int), (4 : Int)) ∈ ballList initialGrid (1, 1) 5 :=
    ball_le initialGrid (1, 1) (by omega) _ hin
  revert h5
  decide

/-- C2 counterexample: contrary to the claimed shortest length, no legal
4-move plan from the start `(1, 1)` reaches the Goal `(2, 4)` of the
5x5 grid of the program at all (the true shortest length is 6). -/
theorem claim_C2_counterexample :
    ¬ ∃ ds : List String, ds.length = 4 ∧
      pathOkB initialGrid (1, 1) ds ((2 : Int), (4 : Int)) = true := by
  rintro ⟨ds, h4, hp⟩
  have := init_dist_lower ds hp
  omega

/-- C2 (amended): on the 5x5 grid of the program the planner plan from `(1, 1)`
to the Goal `(2, 4)` is the 6-move sequence SOUTH SOUTH EAST EAST NORTH
EAST; it is a legal walk, no legal walk is shorter, and replaying it against
the environment puts the agent exactly on `(2, 4)` with a final observation
carrying the `SUCCESS` tag. -/
theorem claim_C2_amended :
    bfsPath initialGrid (1, 1) ((2 : Int), (4 : Int)) =
      some ["SOUTH", "SOUTH", "EAST", "EAST", "NORTH", "EAST"] ∧
    pathOkB initialGrid (1, 1) ["SOUTH", "SOUTH", "EAST", "EAST", "NORTH", "EAST"]
      ((2 : Int), (4 : Int)) = true ∧
    (∀ ds, pathOkB initialGrid (1, 1) ds ((2 : Int), (4 : Int)) = true →
      6 ≤ ds.length) ∧
    (replayEnv initialEnv ["SOUTH", "SOUTH", "EAST", "EAST", "NORTH", "EAST"]).1.agent_pos =
      ((2 : Int), (4 : Int)) ∧
    hasSub (replayEnv initialEnv
      ["SOUTH", "SOUTH", "EAST", "EAST", "NORTH", "EAST"]).2.data "SUCCESS".data = true ∧
    targetsOf initialGrid = [((2 : Int), (4 : Int))] :=
  ⟨by decide, by decide, init_dist_lower, by decide, by decide, by decide⟩

/-- C2 amended-claim witness: the minimality clause applied to the concrete
6-move plan. -/
theorem claim_C2_amended_witness :
    6 ≤ (["SOUTH", "SOUTH", "EAST", "EAST", "NORTH", "EAST"] : List String).length :=
  claim_C2_amended.2.2.1 _ (by decide)

/-! ### The loop on final, malformed and unknown-tool messages -/

/-- A non-final message in which either marker search fails makes the loop
body record the message and report a malformed iteration, dispatching
nothing. -/
theorem loopIter_malformed (f : DecisionSource) (st : LoopState)
    (hfin : pyStartsWith (f st).1 "Final Answer:" = false)
    (hmal : searchActionName (f st).1.data = none ∨
      searchActionInput (f st).1.data = none) :
    loopIter f st =
      ({ st with
          cache := (f st).2
          history := st.history ++ [("assistant", (f st).1)] }, .malformed) := by
  rcases hmal with hm | hm
  · simp only [loopIter, hfin, Bool.false_eq_true, if_false, hm]
  · cases hsa : searchActionName (f st).1.data with
    | none => simp only [loopIter, hfin, Bool.false_eq_true, if_false, hsa]
    | some aw => simp only [loopIter, hfin, Bool.false_eq_true, if_false, hsa, hm]

/-- A `Final Answer:` message makes the loop body record the message and
terminate, dispatching nothing. -/
theorem loopIter_final (f : DecisionSource) (st : LoopState)
    (hfin : pyStartsWith (f st).1 "Final Answer:" = true) :
    loopIter f st =
      ({ st with
          cache := (f st).2
          history := st.history ++ [("assistant", (f st).1)] }, .final (f st).1) := by
  simp only [loopIter, hfin, if_true]

/-- C5: a decision-source message carrying neither an action marker nor the
final marker terminates the run at once with the protocol-failure outcome:
the message is recorded, no tool is dispatched, the environment is
untouched, and exactly one iteration of the remaining budget runs. -/
theorem claim_C5_malformed_terminates (f : DecisionSource) (st : LoopState) (n : Nat)
    (hfin : pyStartsWith (f st).1 "Final Answer:" = false)
    (hmal : searchActionName (f st).1.data = none ∨
      searchActionInput (f st).1.data = none) :
    runLoop f (n + 1) st =
      ({ st with
          cache := (f st).2
          history := st.history ++ [("assistant", (f st).1)] },
       .protocolError, [], 1) := by
  have h := loopIter_malformed f st hfin hmal
  unfold runLoop
  rw [h]

/-- C5 witness: a concrete gibberish message from a concrete oracle. -/
theorem claim_C5_malformed_terminates_witness :
    (runLoop (fun _ => ("go north", none)) 1 initialState).2.1 =
      RunOutcome.protocolError := by
  have h := claim_C5_malformed_terminates (fun _ => ("go north", none)) initialState 0
    (by decide) (Or.inl (by decide))
  rw [h]

/-- C7 counterexample: dispatching the unknown tool name `SUCCESSTOOL`
terminates the run (the unknown-tool error observation contains the
`SUCCESS` substring, which the loop treats as goal reached), instead of
continuing to the next iteration as claimed: with budget 5 only one
iteration runs and the outcome is the goal-success break. -/
theorem claim_C7_counterexample :
    (dispatchTool initialEnv "SUCCESSTOOL" "x").1 = initialEnv ∧
    (dispatchTool initialEnv "SUCCESSTOOL" "x").2 = unknownToolMsg "SUCCESSTOOL" ∧
    (runLoop (fun _ => ("Action: SUCCESSTOOL\nAction Input: x", none)) 5
      initialState).2.1 = RunOutcome.goalSuccess ∧
    (runLoop (fun _ => ("Action: SUCCESSTOOL\nAction Input: x", none)) 5
      initialState).2.2.1 = [("SUCCESSTOOL", "x")] ∧
    (runLoop (fun _ => ("Action: SUCCESSTOOL\nAction Input: x", none)) 5
      initialState).2.2.2 = 1 := by
  refine ⟨by decide, by decide, by decide, by decide, by decide⟩

/-- Unfolding of `runLoop` on a non-success dispatched step: the loop
recurses into the remaining budget, recording the dispatched pair. -/
theorem runLoop_succ_step (f : DecisionSource) (n : Nat) (st st' : LoopState)
    (a i o : String) (h : loopIter f st = (st', .step a i o false)) :
    runLoop f (n + 1) st =
      ((runLoop f n st').1, (runLoop f n st').2.1,
       (a, i) :: (runLoop f n st').2.2.1, (runLoop f n st').2.2.2 + 1) := by
  simp only [runLoop, h]

/-- C7 (amended): dispatching an unknown action name appends the
unknown-tool error observation to the history without touching the
environment, and — provided that observation does not contain the `SUCCESS`
substring (i.e. the action name does not smuggle it in) — the loop
continues into the remaining iterations rather than terminating. -/
theorem claim_C7_amended (f : DecisionSource) (st : LoopState) (n : Nat)
    (aw iw : List Char)
    (hfin : pyStartsWith (f st).1 "Final Answer:" = false)
    (hact : searchActionName (f st).1.data = some aw)
    (hinp : searchActionInput (f st).1.data = some iw)
    (hunk : pyStrip (String.mk aw) ∉
      (["move_agent", "look_around", "update_map", "get_pos"] : List String))
    (hnos : hasSub (unknownToolMsg (pyStrip (String.mk aw))).data "SUCCESS".data = false) :
    ∃ st' : LoopState,
      st'.env = st.env ∧
      st'.history = st.history ++ [("assistant", (f st).1),
        ("user", "Observation: " ++ unknownToolMsg (pyStrip (String.mk aw)))] ∧
      loopIter f st =
        (st', .step (pyStrip (String.mk aw)) (pyStrip (String.mk iw))
          (unknownToolMsg (pyStrip (String.mk aw))) false) ∧
      runLoop f (n + 1) st =
        ((runLoop f n st').1, (runLoop f n st').2.1,
         (pyStrip (String.mk aw), pyStrip (String.mk iw)) :: (runLoop f n st').2.2.1,
         (runLoop f n st').2.2.2 + 1) := by
  have hne : ∀ t, t ∈ (["move_agent", "look_around", "update_map", "get_pos"] : List String) →
      pyStrip (String.mk aw) ≠ t := fun t ht he => hunk (he ▸ ht)
  have hdisp : dispatchTool st.env (pyStrip (String.mk aw)) (pyStrip (String.mk iw)) =
      (st.env, unknownToolMsg (pyStrip (String.mk aw))) := by
    unfold dispatchTool
    rw [if_neg (hne _ (by simp)), if_neg (hne _ (by simp)), if_neg (hne _ (by simp)),
      if_neg (hne _ (by simp))]
  have hiter : loopIter f st =
      ({ env := st.env, cache := (f st).2,
         history := st.history ++ [("assistant", (f st).1),
           ("user", "Observation: " ++ unknownToolMsg (pyStrip (String.mk aw)))] },
       .step (pyStrip (String.mk aw)) (pyStrip (String.mk iw))
         (unknownToolMsg (pyStrip (String.mk aw))) false) := by
    simp only [loopIter, hfin, Bool.false_eq_true, if_false, hact, hinp, hdisp, hnos,
      List.append_assoc, List.cons_append, List.nil_append]
  exact ⟨{ env := st.env, cache := (f st).2,
           history := st.history ++ [("assistant", (f st).1),
             ("user", "Observation: " ++ unknownToolMsg (pyStrip (String.mk aw)))] },
    rfl, rfl, hiter, runLoop_succ_step f n st _ _ _ _ hiter⟩

/-- C7 amended-claim witness: the unknown tool name `fly`. -/
theorem claim_C7_amended_witness :
    (loopIter (fun _ => ("Action: fly\nAction Input: up", none)) initialState).2 =
      IterOut.step "fly" "up" (unknownToolMsg "fly") false := by
  obtain ⟨st', _, _, h3, _⟩ := claim_C7_amended
    (fun _ => ("Action: fly\nAction Input: up", none))
    initialState 0 "fly".data "up".data (by decide) (by decide) (by decide)
    (by decide) (by decide)
  rw [h3]
  show IterOut.step (pyStrip (String.mk "fly".data)) (pyStrip (String.mk "up".data))
    (unknownToolMsg (pyStrip (String.mk "fly".data))) false =
    IterOut.step "fly" "up" (unknownToolMsg "fly") false
  decide

/-- The loop executes at most its budget of iterations. -/
theorem runLoop_iterations_le (f : DecisionSource) :
    ∀ (n : Nat) (st : LoopState), (runLoop f n st).2.2.2 ≤ n := by
  intro n
  induction n with
  | zero => intro _; exact Nat.le_refl 0
  | succ k ih =>
    intro st
    unfold runLoop
    rcases h : loopIter f st with ⟨st', out⟩
    cases out with
    | final m => exact Nat.succ_le_succ (Nat.zero_le k)
    | malformed => exact Nat.succ_le_succ (Nat.zero_le k)
    | step a i o s =>
      cases s
      · exact Nat.succ_le_succ (ih st')
      · exact Nat.succ_le_succ (Nat.zero_le k)

/-- C6: the loop runs at most the step-budget number of iterations; and in
the concrete scenario (budget 1, Goal at least 2 moves away) the run ends
budget-exhausted — not in success — after exactly one dispatched action,
whose action/observation pair is the only addition to the two seeded
history entries. -/
theorem claim_C6_step_budget :
    (∀ (f : DecisionSource) (n : Nat) (st : LoopState), (runLoop f n st).2.2.2 ≤ n) ∧
    (run_agent_loop 1).2.1 = RunOutcome.exhausted ∧
    (run_agent_loop 1).2.2.1 = [("move_agent", "SOUTH")] ∧
    (run_agent_loop 1).2.2.2 = 1 ∧
    (run_agent_loop 1).1.history.length = 4 ∧
    (run_agent_loop 1).1.history.drop 2 =
      [("assistant", renderLlm (.action 5 "SOUTH")),
       ("user", "Observation: " ++ movedMsg (2, 1))] ∧
    (∀ ds, pathOkB initialGrid (1, 1) ds ((2 : Int), (4 : Int)) = true →
      2 ≤ ds.length) :=
  ⟨runLoop_iterations_le, by decide, by decide, by decide, by decide, by decide,
   fun ds h => Nat.le_trans (by omega) (init_dist_lower ds h)⟩

/-- C6 witness: the budget bound at a concrete budget and the distance bound
at a concrete plan. -/
theorem claim_C6_step_budget_witness :
    (runLoop llmSource 3 initialState).2.2.2 ≤ 3 ∧
    2 ≤ (["SOUTH", "SOUTH", "EAST", "EAST", "NORTH", "EAST"] : List String).length :=
  ⟨claim_C6_step_budget.1 llmSource 3 initialState,
   claim_C6_step_budget.2.2.2.2.2.2 _ (by decide)⟩

/-! ### Path decomposition and shortest-distance facts -/

/-- A legal step lands in bounds, off the walls, and on a different cell. -/
theorem stepLegal_facts (g : Grid) (p : Pos) (d : String) (q : Pos)
    (h : stepLegal g p d = some q) :
    inBnds g q = true ∧ cellAt g q ≠ Cell.W ∧ q ≠ p := by
  unfold stepLegal at h
  cases halo : alookup dirOffsets d with
  | none => rw [halo] at h; cases h
  | some off =>
    rw [halo] at h
    dsimp only at h
    by_cases hg : (inBnds g (padd p off) && decide (cellAt g (padd p off) ≠ Cell.W)) = true
    · rw [if_pos hg] at h
      injection h with h
      have hg' : inBnds g (padd p off) = true ∧ cellAt g (padd p off) ≠ Cell.W := by
        simpa using hg
      have hmem := alookup_mem _ _ _ halo
      have hne : padd p off ≠ p := by
        unfold dirOffsets at hmem
        simp only [List.mem_cons, List.not_mem_nil, or_false, Prod.mk.injEq] at hmem
        rcases hmem with ⟨_, h2⟩ | ⟨_, h2⟩ | ⟨_, h2⟩ | ⟨_, h2⟩ <;>
          (subst h2
           intro hc
           have hc1 := congrArg Prod.fst hc
           have hc2 := congrArg Prod.snd hc
           simp only [padd] at hc1 hc2
           omega)
      rw [← h]
      exact ⟨hg'.1, hg'.2, hne⟩
    · rw [if_neg hg] at h; cases h

/-- Splitting a legal walk at an intermediate point. -/
theorem pathOkB_append (g : Grid) :
    ∀ (ds₁ ds₂ : List String) (p t : Pos),
      pathOkB g p (ds₁ ++ ds₂) t = true ↔
        ∃ m, pathOkB g p ds₁ m = true ∧ pathOkB g m ds₂ t = true := by
  intro ds₁
  induction ds₁ with
  | nil =>
    intro ds₂ p t
    constructor
    · intro h
      exact ⟨p, by unfold pathOkB; exact decide_eq_true rfl, by simpa using h⟩
    · rintro ⟨m, hm, h₂⟩
      have : p = m := of_decide_eq_true hm
      simpa [this] using h₂
  | cons d ds ih =>
    intro ds₂ p t
    constructor
    · intro h
      rw [List.cons_append] at h
      unfold pathOkB at h
      cases hs : stepLegal g p d with
      | none => rw [hs] at h; cases h
      | some q =>
        rw [hs] at h
        rcases (ih ds₂ q t).mp h with ⟨m, h₁, h₂⟩
        refine ⟨m, ?_, h₂⟩
        unfold pathOkB
        rw [hs]
        exact h₁
    · rintro ⟨m, h₁, h₂⟩
      unfold pathOkB at h₁
      cases hs : stepLegal g p d with
      | none => rw [hs] at h₁; cases h₁
      | some q =>
        rw [hs] at h₁
        rw [List.cons_append]
        unfold pathOkB
        rw [hs]
        exact (ih ds₂ q t).mpr ⟨m, h₁, h₂⟩

/-- A one-move walk is exactly a legal step. -/
theorem pathOkB_single (g : Grid) (p t : Pos) (d : String) :
    pathOkB g p [d] t = true ↔ stepLegal g p d = some t := by
  unfold pathOkB
  cases hs : stepLegal g p d with
  | none => simp
  | some q =>
    unfold pathOkB
    constructor
    · intro h; rw [of_decide_eq_true h]
    · intro h; injection h with h; rw [h]; exact decide_eq_true rfl

/-- Appending one legal step to a legal walk. -/
theorem pathOkB_snoc (g : Grid) (p m t : Pos) (ds : List String) (d : String)
    (h₁ : pathOkB g p ds m = true) (h₂ : stepLegal g m d = some t) :
    pathOkB g p (ds ++ [d]) t = true :=
  (pathOkB_append g ds [d] p t).mpr ⟨m, h₁, (pathOkB_single g m t d).mpr h₂⟩

/-- Every position is at distance 0 from itself. -/
theorem DistIs_self (g : Grid) (s : Pos) : DistIs g s s 0 :=
  ⟨⟨[], rfl, decide_eq_true rfl⟩, fun _ _ => Nat.zero_le _⟩

/-- The shortest distance is unique. -/
theorem DistIs_unique (g : Grid) (s p : Pos) {n m : Nat}
    (hn : DistIs g s p n) (hm : DistIs g s p m) : n = m := by
  obtain ⟨⟨ds₁, hl₁, hp₁⟩, hmin₁⟩ := hn
  obtain ⟨⟨ds₂, hl₂, hp₂⟩, hmin₂⟩ := hm
  have h₁ := hmin₁ ds₂ hp₂
  have h₂ := hmin₂ ds₁ hp₁
  omega

/-- Distance 0 forces the position to be the start. -/
theorem DistIs_zero (g : Grid) (s p : Pos) (h : DistIs g s p 0) : p = s := by
  obtain ⟨⟨ds, hl, hp⟩, _⟩ := h
  rcases List.length_eq_zero.mp hl with rfl
  exact (of_decide_eq_true hp).symm

/-- Every reachable position has a well-defined shortest distance. -/
theorem reach_dist (g : Grid) (s p : Pos) (h : Reach g s p) :
    ∃ n, DistIs g s p n := by
  classical
  have hne : ∃ n, ∃ ds : List String, ds.length = n ∧ pathOkB g s ds p = true := by
    obtain ⟨ds, hds⟩ := h
    exact ⟨ds.length, ds, rfl, hds⟩
  refine ⟨Nat.find hne, Nat.find_spec hne, ?_⟩
  intro ds hds
  exact Nat.find_min' hne ⟨ds, rfl, hds⟩

/-- A shortest distance across one more legal step grows by at most one. -/
theorem dist_step_le (g : Grid) (s p q : Pos) (d : String) {n m : Nat}
    (hp : DistIs g s p n) (hs : stepLegal g p d = some q)
    (hq : DistIs g s q m) : m ≤ n + 1 := by
  obtain ⟨⟨ds, hl, hpath⟩, _⟩ := hp
  have := hq.2 (ds ++ [d]) (pathOkB_snoc g s p q ds d hpath hs)
  simpa [hl] using this

/-- The target of a legal step from a reachable position is reachable. -/
theorem reach_step (g : Grid) (s p q : Pos) (d : String)
    (hp : Reach g s p) (hs : stepLegal g p d = some q) : Reach g s q := by
  obtain ⟨ds, hds⟩ := hp
  exact ⟨ds ++ [d], pathOkB_snoc g s p q ds d hds hs⟩

/-- A position at distance `n + 1` has a shortest-path predecessor at
distance `n`. -/
theorem dist_pred (g : Grid) (s p : Pos) (n : Nat) (h : DistIs g s p (n + 1)) :
    ∃ r d, stepLegal g r d = some p ∧ DistIs g s r n := by
  obtain ⟨⟨ds, hl, hpath⟩, hmin⟩ := h
  have hne : ds ≠ [] := by intro hc; rw [hc] at hl; cases hl
  rcases ds.eq_nil_or_concat' with hcnil | ⟨ds', d, rfl⟩
  case inl => exact absurd hcnil hne
  rcases (pathOkB_append g ds' [d] s p).mp hpath with ⟨r, h₁, h₂⟩
  have hstep := (pathOkB_single g r p d).mp h₂
  have hlen : ds'.length = n := by
    rw [List.length_append] at hl
    simpa using hl
  refine ⟨r, d, hstep, ⟨⟨ds', hlen, h₁⟩, ?_⟩⟩
  intro ds₀ h₀
  by_contra hc
  push_neg at hc
  have := hmin (ds₀ ++ [d]) (pathOkB_snoc g s r p ds₀ d h₀ hstep)
  rw [List.length_append] at this
  simp only [List.length_singleton] at this
  omega

/-- Along a shortest path, the point after `k` moves is at distance exactly
`k`, and in bounds whenever `k ≥ 1`. -/
theorem dist_level (g : Grid) (s p : Pos) (n : Nat) (h : DistIs g s p n)
    (k : Nat) (hk : k ≤ n) :
    ∃ x, DistIs g s x k ∧ (1 ≤ k → inBnds g x = true) := by
  obtain ⟨⟨ds, hl, hpath⟩, hmin⟩ := h
  have hsplit : ds = ds.take k ++ ds.drop k := (List.take_append_drop k ds).symm
  rw [hsplit] at hpath
  rcases (pathOkB_append g (ds.take k) (ds.drop k) s p).mp hpath with ⟨x, h₁, h₂⟩
  have hlen₁ : (ds.take k).length = k := by
    rw [List.length_take]
    omega
  have hxk : DistIs g s x k := by
    refine ⟨⟨ds.take k, hlen₁, h₁⟩, ?_⟩
    intro ds₀ h₀
    by_contra hc
    push_neg at hc
    have := hmin (ds₀ ++ ds.drop k)
      ((pathOkB_append g ds₀ (ds.drop k) s p).mpr ⟨x, h₀, h₂⟩)
    rw [List.length_append, List.length_drop] at this
    omega
  refine ⟨x, hxk, ?_⟩
  intro h1k
  have hne : ds.take k ≠ [] := by
    intro hc
    rw [hc] at hlen₁
    simp at hlen₁
    omega
  rcases (ds.take k).eq_nil_or_concat' with hcnil | ⟨ds'', d, hconcat⟩
  case inl => exact absurd hcnil hne
  rw [hconcat] at h₁
  rcases (pathOkB_append g ds'' [d] s x).mp h₁ with ⟨r, _, h₂'⟩
  exact (stepLegal_facts g r d x ((pathOkB_single g r x d).mp h₂')).1

/-! ### Counting positions: distances are bounded by the grid size -/

/-- An in-bounds position appears in the row-major enumeration. -/
theorem mem_allPos (g : Grid) (p : Pos) (h : inBnds g p = true) : p ∈ allPos g := by
  unfold inBnds at h
  simp only [Bool.and_eq_true, decide_eq_true_eq] at h
  obtain ⟨⟨⟨h1, h2⟩, h3⟩, h4⟩ := h
  unfold rowsOf at h2
  unfold colsOf at h4
  unfold allPos
  apply List.mem_flatMap.mpr
  refine ⟨p.1.toNat, List.mem_range.mpr (by omega), ?_⟩
  apply List.mem_map.mpr
  refine ⟨p.2.toNat, List.mem_range.mpr (by omega), ?_⟩
  rcases p with ⟨a, b⟩
  simp only at h1 h3 ⊢
  have ha : Int.ofNat a.toNat = a := by
    rw [Int.ofNat_eq_coe]
    exact Int.toNat_of_nonneg h1
  have hb : Int.ofNat b.toNat = b := by
    rw [Int.ofNat_eq_coe]
    exact Int.toNat_of_nonneg h3
  rw [ha, hb]

/-- The enumeration has exactly `rows * cols` entries. -/
theorem allPos_length (g : Grid) :
    (allPos g).length = g.length * (g.headD []).length := by
  unfold allPos
  rw [List.length_flatMap]
  rw [show (List.length ∘ fun r => List.map
      (fun c => ((Int.ofNat r, Int.ofNat c) : Pos)) (List.range (g.headD []).length)) =
      fun _ : Nat => (g.headD []).length from funext fun r => by
        simp [Function.comp]]
  rw [List.map_const', List.length_range, List.sum_const_nat]

/-- A shortest distance never exceeds the number of grid cells: the points
after 1, 2, …, n moves of a shortest path are pairwise distinct in-bounds
positions. -/
theorem dist_le_card (g : Grid) (s p : Pos) (n : Nat) (h : DistIs g s p n) :
    n ≤ (allPos g).length := by
  classical
  rcases n with _ | m
  · exact Nat.zero_le _
  have hrep : ∀ k : Fin (m + 1), ∃ x, DistIs g s x (k.val + 1) ∧ inBnds g x = true := by
    intro k
    obtain ⟨x, hx, hb⟩ := dist_level g s p (m + 1) h (k.val + 1)
      (Nat.succ_le_succ (Nat.le_of_lt_succ k.isLt))
    exact ⟨x, hx, hb (Nat.le_add_left 1 k.val)⟩
  choose f hf hb using hrep
  have hinj : Function.Injective f := by
    intro k₁ k₂ hk
    have h₁ := hf k₁
    rw [hk] at h₁
    have := DistIs_unique g s (f k₂) h₁ (hf k₂)
    exact Fin.ext (by omega)
  have hsubset : Finset.univ.image f ⊆ (allPos g).toFinset := by
    intro x hx
    rcases Finset.mem_image.mp hx with ⟨k, _, rfl⟩
    rw [List.mem_toFinset]
    exact mem_allPos g (f k) (hb k)
  have hcard : (Finset.univ.image f).card = m + 1 := by
    rw [Finset.card_image_of_injective _ hinj, Finset.card_univ, Fintype.card_fin]
  have := Finset.card_le_card hsubset
  rw [hcard] at this
  exact le_trans this (allPos g).toFinset_card_le

/-! ### Association-list appends and the BFS measure -/

/-- Appending entries does not shadow existing keys. -/
theorem alookup_append_of_some {α β : Type} [DecidableEq α]
    (P Q : List (α × β)) (a : α) (h : alookup P a ≠ none) :
    alookup (P ++ Q) a = alookup P a := by
  induction P with
  | nil => exact absurd rfl h
  | cons kv rest ih =>
    rcases kv with ⟨k, v⟩
    simp only [alookup] at h
    rw [List.cons_append]
    simp only [alookup]
    by_cases hk : a = k
    · rw [if_pos hk, if_pos hk]
    · rw [if_neg hk, if_neg hk]
      rw [if_neg hk] at h
      exact ih h

/-- Lookup passes over absent keys into the appended part. -/
theorem alookup_append_of_none {α β : Type} [DecidableEq α]
    (P Q : List (α × β)) (a : α) (h : alookup P a = none) :
    alookup (P ++ Q) a = alookup Q a := by
  induction P with
  | nil => rfl
  | cons kv rest ih =>
    rcases kv with ⟨k, v⟩
    simp only [alookup] at h
    rw [List.cons_append]
    simp only [alookup]
    by_cases hk : a = k
    · rw [if_pos hk] at h; cases h
    · rw [if_neg hk]
      rw [if_neg hk] at h
      exact ih h

/-- A pointwise-smaller filter keeps at most as many elements. -/
theorem filter_length_mono {α : Type} (l : List α) (q q' : α → Bool)
    (hmono : ∀ a, q' a = true → q a = true) :
    (l.filter q').length ≤ (l.filter q).length := by
  induction l with
  | nil => exact Nat.le_refl 0
  | cons a t ih =>
    cases hq' : q' a with
    | false =>
      rw [@List.filter_cons_of_neg _ q' a t (by simp [hq'])]
      cases hq : q a with
      | false => rw [@List.filter_cons_of_neg _ q a t (by simp [hq])]; exact ih
      | true =>
        rw [@List.filter_cons_of_pos _ q a t hq]
        exact Nat.le_succ_of_le ih
    | true =>
      have hq := hmono a hq'
      rw [@List.filter_cons_of_pos _ q' a t hq', @List.filter_cons_of_pos _ q a t hq]
      exact Nat.succ_le_succ ih

/-- A pointwise-smaller filter that also loses a definite member keeps
strictly fewer elements. -/
theorem filter_length_lt {α : Type} (l : List α) (q q' : α → Bool)
    (hmono : ∀ a, q' a = true → q a = true)
    (x : α) (hx : x ∈ l) (hqx : q x = true) (hq'x : q' x = false) :
    (l.filter q').length < (l.filter q).length := by
  induction l with
  | nil => cases hx
  | cons a t ih =>
    rcases List.mem_cons.mp hx with rfl | hx'
    · rw [@List.filter_cons_of_neg _ q' x t (by simp [hq'x]),
        @List.filter_cons_of_pos _ q x t hqx]
      exact Nat.lt_succ_of_le (filter_length_mono t q q' hmono)
    · cases hq' : q' a with
      | false =>
        rw [@List.filter_cons_of_neg _ q' a t (by simp [hq'])]
        cases hq : q a with
        | false => rw [@List.filter_cons_of_neg _ q a t (by simp [hq])]; exact ih hx'
        | true =>
          rw [@List.filter_cons_of_pos _ q a t hq]
          exact Nat.lt_succ_of_lt (ih hx')
      | true =>
        have hq := hmono a hq'
        rw [@List.filter_cons_of_pos _ q' a t hq', @List.filter_cons_of_pos _ q a t hq]
        exact Nat.succ_lt_succ (ih hx')

/-- The number of undiscovered cells never exceeds the number of cells. -/
theorem absentCount_le (g : Grid) (P : PrevMap) :
    absentCount g P ≤ (allPos g).length :=
  List.length_filter_le _ _

/-- Recording a fresh in-bounds key strictly shrinks the undiscovered
count. -/
theorem absent_insert_lt (g : Grid) (P : PrevMap) (k : Pos) (v : Option Pos)
    (hb : inBnds g k = true) (hnone : alookup P k = none) :
    absentCount g (P ++ [(k, v)]) < absentCount g P := by
  unfold absentCount
  apply filter_length_lt (allPos g) _ _ ?hmono k (mem_allPos g k hb) ?hqx ?hq'x
  case hmono =>
    intro p hp
    rw [decide_eq_true_eq] at hp
    rw [decide_eq_true_eq]
    by_contra hsome
    rw [alookup_append_of_some P _ p hsome] at hp
    exact hsome hp
  case hqx => rw [decide_eq_true_eq]; exact hnone
  case hq'x =>
    rw [decide_eq_false_iff_not]
    rw [alookup_append_of_none P _ k hnone]
    intro hc
    unfold alookup at hc
    rw [if_pos rfl] at hc
    cases hc

/-- A position with a well-defined distance is reachable. -/
theorem reach_of_dist (g : Grid) (s p : Pos) {n : Nat} (h : DistIs g s p n) :
    Reach g s p := by
  obtain ⟨⟨ds, _, hp⟩, _⟩ := h
  exact ⟨ds, hp⟩

/-- Pushing a fresh key makes it visible. -/
theorem alookup_push_self {α β : Type} [DecidableEq α] (P : List (α × β)) (k : α) (v : β)
    (h : alookup P k = none) : alookup (P ++ [(k, v)]) k = some v := by
  rw [alookup_append_of_none _ _ _ h]
  simp [alookup]

/-- Pushing a fresh key leaves other absent keys absent. -/
theorem alookup_push_other {α β : Type} [DecidableEq α] (P : List (α × β)) (k : α) (v : β)
    (p : α) (h : alookup P p = none) (hne : p ≠ k) :
    alookup (P ++ [(k, v)]) p = none := by
  rw [alookup_append_of_none _ _ _ h]
  simp [alookup, hne]

/-- A key visible after a push was either already present or is the pushed
key. -/
theorem alookup_push_cases {α β : Type} [DecidableEq α] (P : List (α × β)) (k : α) (v : β)
    (p : α) (h : alookup (P ++ [(k, v)]) p ≠ none) : alookup P p ≠ none ∨ p = k := by
  by_cases hp : alookup P p = none
  · by_cases hpk : p = k
    · exact Or.inr hpk
    · exact absurd (alookup_push_other P k v p hp hpk) h
  · exact Or.inl hp

/-- The invariant of the BFS neighbour-expansion loop: expanding the popped
node `node` (at distance `dval`, already discovered) through any suffix
`rest` of its neighbour list preserves the bookkeeping soundness and the
queue-shape facts, appending the freshly discovered distance-`dval+1`
neighbours (`news`) to the queue, and never increasing the termination
measure. -/
theorem expand_inv (g : Grid) (s target node : Pos) (dval : Nat)
    (hnode : DistIs g s node dval) (A' B : List Pos) :
    ∀ (rest : List (Pos × String)) (news : List Pos) (P : PrevMap) (M : MoveMap),
    (∀ x ∈ rest, stepLegal g node x.2 = some x.1) →
    PrevOk g s P M →
    discovered P node →
    (∀ a ∈ A', DistIs g s a dval ∧ discovered P a) →
    (∀ b ∈ B ++ news, DistIs g s b (dval + 1) ∧ discovered P b) →
    (∀ p n, DistIs g s p n → n ≤ dval → discovered P p) →
    (∀ p, DistIs g s p (dval + 1) → ¬ discovered P p →
      (∃ a ∈ A', ∃ dd, stepLegal g a dd = some p) ∨ (∃ dd, (p, dd) ∈ rest)) →
    (∀ p, discovered P p → DistIs g s p (dval + 1) → p ∈ B ++ news) →
    (∀ p n, discovered P p → DistIs g s p n → n ≤ dval + 1) →
    (discovered P target → target ∈ (A' ++ B) ++ news) →
    ∃ news' P' M',
      expandNbrs node rest ((A' ++ B) ++ news, P, M) = ((A' ++ B) ++ news', P', M') ∧
      PrevOk g s P' M' ∧
      (∀ p, discovered P p → alookup P' p = alookup P p) ∧
      (∀ a ∈ A', DistIs g s a dval ∧ discovered P' a) ∧
      (∀ b ∈ B ++ news', DistIs g s b (dval + 1) ∧ discovered P' b) ∧
      (∀ p n, DistIs g s p n → n ≤ dval → discovered P' p) ∧
      (∀ p, DistIs g s p (dval + 1) → ¬ discovered P' p →
        ∃ a ∈ A', ∃ dd, stepLegal g a dd = some p) ∧
      (∀ p, discovered P' p → DistIs g s p (dval + 1) → p ∈ B ++ news') ∧
      (∀ p n, discovered P' p → DistIs g s p n → n ≤ dval + 1) ∧
      (discovered P' target → target ∈ (A' ++ B) ++ news') ∧
      absentCount g P' + ((A' ++ B) ++ news').length ≤
        absentCount g P + ((A' ++ B) ++ news).length := by
  intro rest
  induction rest with
  | nil =>
    intro news P M _ hPok _ hA hBn hcov hfront hpend hbound htgt
    refine ⟨news, P, M, rfl, hPok, fun p _ => rfl, hA, hBn, hcov, ?_, hpend, hbound,
      htgt, Nat.le_refl _⟩
    intro p hd hnd
    rcases hfront p hd hnd with h | ⟨dd, hdd⟩
    · exact h
    · cases hdd
  | cons x rest ih =>
    intro news P M hrest hPok hdiscnode hA hBn hcov hfront hpend hbound htgt
    rcases x with ⟨nbr, dd⟩
    have hstep : stepLegal g node dd = some nbr := hrest (nbr, dd) (List.mem_cons_self _ _)
    by_cases hseen : alookup P nbr = none
    case neg =>
      have hexp : expandNbrs node ((nbr, dd) :: rest) ((A' ++ B) ++ news, P, M) =
          expandNbrs node rest ((A' ++ B) ++ news, P, M) := by
        simp only [expandNbrs]
        rw [if_neg hseen]
      rw [hexp]
      apply ih news P M (fun y hy => hrest y (List.mem_cons_of_mem _ hy)) hPok hdiscnode
        hA hBn hcov ?_ hpend hbound htgt
      intro p hd hnd
      rcases hfront p hd hnd with h | ⟨dd₀, hdd₀⟩
      · exact Or.inl h
      · rcases List.mem_cons.mp hdd₀ with heq | hmem
        · exfalso
          apply hnd
          have hpn : p = nbr := congrArg Prod.fst heq
          rw [hpn]
          exact hseen
        · exact Or.inr ⟨dd₀, hmem⟩
    case pos =>
      have hexp : expandNbrs node ((nbr, dd) :: rest) ((A' ++ B) ++ news, P, M) =
          expandNbrs node rest ((A' ++ B) ++ (news ++ [nbr]),
            P ++ [(nbr, some node)], M ++ [(nbr, dd)]) := by
        simp only [expandNbrs]
        rw [if_pos hseen, List.append_assoc]
      rw [hexp]
      have hnf := stepLegal_facts g node dd nbr hstep
      have hreach : Reach g s nbr := reach_step g s node nbr dd (reach_of_dist g s node hnode) hstep
      obtain ⟨m, hm⟩ := reach_dist g s nbr hreach
      have hmle : m ≤ dval + 1 := dist_step_le g s node nbr dd hnode hstep hm
      have hmgt : ¬ m ≤ dval := by
        intro hle
        exact (hcov nbr m hm hle) hseen
      have hnbr : DistIs g s nbr (dval + 1) := by
        have : m = dval + 1 := by omega
        rwa [this] at hm
      -- lookup facts for the pushed maps
      have hkeep : ∀ p, alookup P p ≠ none →
          alookup (P ++ [(nbr, some node)]) p = alookup P p :=
        fun p hp => alookup_append_of_some P _ p hp
      have hnew : alookup (P ++ [(nbr, some node)]) nbr = some (some node) :=
        alookup_push_self P nbr (some node) hseen
      have hMnone : alookup M nbr = none := hPok.mdom nbr hseen
      have hMkeep : ∀ p, alookup M p ≠ none →
          alookup (M ++ [(nbr, dd)]) p = alookup M p :=
        fun p hp => alookup_append_of_some M _ p hp
      have hMnew : alookup (M ++ [(nbr, dd)]) nbr = some dd :=
        alookup_push_self M nbr dd hMnone
      have hPok' : PrevOk g s (P ++ [(nbr, some node)]) (M ++ [(nbr, dd)]) := by
        refine ⟨?_, ?_, ?_, ?_⟩
        · rw [hkeep s (by rw [hPok.root]; intro hc; cases hc)]
          exact hPok.root
        · intro p hp
          rcases alookup_push_cases P _ _ p (by rw [hp]; intro hc; cases hc) with hd | rfl
          · rw [hkeep p hd] at hp
            exact hPok.root_only p hp
          · rw [hnew] at hp
            cases hp
        · intro p r hp
          rcases alookup_push_cases P _ _ p (by rw [hp]; intro hc; cases hc) with hd | rfl
          · rw [hkeep p hd] at hp
            obtain ⟨d₀, n₀, hM₀, hs₀, hr₀, hp₀, hdr₀⟩ := hPok.parent p r hp
            refine ⟨d₀, n₀, ?_, hs₀, hr₀, hp₀, ?_⟩
            · rw [hMkeep p (by rw [hM₀]; intro hc; cases hc)]
              exact hM₀
            · rw [hkeep r hdr₀]
              exact hdr₀
          · rw [hnew] at hp
            injection hp with hp
            injection hp with hp
            subst hp
            refine ⟨dd, dval, hMnew, hstep, hnode, hnbr, ?_⟩
            rw [hkeep node hdiscnode]
            exact hdiscnode
        · intro p hp
          have hPp : alookup P p = none := by
            by_contra hc
            rw [hkeep p hc] at hp
            exact hc hp
          have hpne : p ≠ nbr := by
            intro hc
            rw [hc, hnew] at hp
            cases hp
          rw [alookup_push_other M nbr dd p (hPok.mdom p hPp) hpne]
      have hdisc' : ∀ p, discovered P p → discovered (P ++ [(nbr, some node)]) p := by
        intro p hp
        unfold discovered at hp ⊢
        rw [hkeep p hp]
        exact hp
      obtain ⟨news'', P'', M'', e1, e2, e3, e4, e5, e6, e7, e8, e9, e10, e11⟩ :=
        ih (news ++ [nbr]) (P ++ [(nbr, some node)]) (M ++ [(nbr, dd)])
          (fun y hy => hrest y (List.mem_cons_of_mem _ hy))
          hPok'
          (hdisc' node hdiscnode)
          (fun a ha => ⟨(hA a ha).1, hdisc' a (hA a ha).2⟩)
          (by
            intro b hb
            simp only [List.mem_append, List.mem_singleton] at hb
            rcases hb with hb' | hb' | rfl
            · exact ⟨(hBn b (List.mem_append.mpr (Or.inl hb'))).1,
                hdisc' b (hBn b (List.mem_append.mpr (Or.inl hb'))).2⟩
            · exact ⟨(hBn b (List.mem_append.mpr (Or.inr hb'))).1,
                hdisc' b (hBn b (List.mem_append.mpr (Or.inr hb'))).2⟩
            · exact ⟨hnbr, by unfold discovered; rw [hnew]; intro hc; cases hc⟩)
          (fun p n hp hn => hdisc' p (hcov p n hp hn))
          (by
            intro p hd hnd
            have hndP : ¬ discovered P p := fun hc => hnd (hdisc' p hc)
            have hpne : p ≠ nbr := by
              intro hc
              apply hnd
              unfold discovered
              rw [hc, hnew]
              intro hc'; cases hc'
            rcases hfront p hd hndP with h | ⟨dd₀, hdd₀⟩
            · exact Or.inl h
            · rcases List.mem_cons.mp hdd₀ with heq | hmem
              · exact absurd (congrArg Prod.fst heq) hpne
              · exact Or.inr ⟨dd₀, hmem⟩)
          (by
            intro p hdp hp
            unfold discovered at hdp
            rcases alookup_push_cases P _ _ p hdp with hd | rfl
            · have hin := hpend p hd hp
              simp only [List.mem_append] at hin ⊢
              tauto
            · simp)
          (by
            intro p n hdp hp
            unfold discovered at hdp
            rcases alookup_push_cases P _ _ p hdp with hd | rfl
            · exact hbound p n hd hp
            · rw [DistIs_unique g s p hp hnbr]
            )
          (by
            intro hdt
            unfold discovered at hdt
            rcases alookup_push_cases P _ _ target hdt with hd | rfl
            · have hin := htgt hd
              simp only [List.mem_append] at hin ⊢
              tauto
            · simp)
      refine ⟨news'', P'', M'', e1, e2, ?_, e4, e5, e6, e7, e8, e9, e10, ?_⟩
      · intro p hp
        rw [e3 p (hdisc' p hp)]
        unfold discovered at hp
        exact hkeep p hp
      · have habs : absentCount g (P ++ [(nbr, some node)]) < absentCount g P :=
          absent_insert_lt g P nbr (some node) hnf.1 hseen
        have hlen : ((A' ++ B) ++ (news ++ [nbr])).length =
            ((A' ++ B) ++ news).length + 1 := by
          simp only [List.length_append, List.length_singleton]
          omega
        omega

/-- When the block of current-level nodes is exhausted, the invariant holds
one level deeper. -/
theorem qinv_shift (g : Grid) (s target : Pos) (P : PrevMap) (d : Nat) (B : List Pos)
    (h : QInv g s target P d [] B) : QInv g s target P (d + 1) B [] := by
  obtain ⟨distA, distB, cov, frontier, pending, distBound, targetQ⟩ := h
  have cov' : ∀ p n, DistIs g s p n → n ≤ d + 1 → discovered P p := by
    intro p n hp hn
    rcases Nat.lt_or_ge n (d + 1) with hlt | hge
    · exact cov p n hp (by omega)
    · have hn1 : n = d + 1 := by omega
      subst hn1
      by_contra hnd
      rcases frontier p hp hnd with ⟨a, ha, _⟩
      cases ha
  refine ⟨distB, ?_, cov', ?_, ?_, ?_, ?_⟩
  · intro b hb; cases hb
  · intro p hp hnd
    obtain ⟨r, dd, hstep, hr⟩ := dist_pred g s p (d + 1) hp
    have hdr : discovered P r := cov' r (d + 1) hr (Nat.le_refl _)
    exact ⟨r, pending r hdr hr, dd, hstep⟩
  · intro p hdp hp
    have := distBound p (d + 2) hdp hp
    omega
  · intro p n hdp hp
    exact Nat.le_succ_of_le (distBound p n hdp hp)
  · intro h
    have := targetQ h
    simpa using this

/-- An empty queue means the whole reachable region was explored: if the
target was never discovered it is unreachable. -/
theorem empty_queue_unreachable (g : Grid) (s target : Pos) (P : PrevMap)
    (d : Nat) (A B : List Pos) (hq : A ++ B = ([] : List Pos))
    (hQ : QInv g s target P d A B) : ¬ Reach g s target := by
  have hA : A = [] := (List.append_eq_nil.mp hq).1
  have hB : B = [] := (List.append_eq_nil.mp hq).2
  subst hA
  subst hB
  intro hreach
  obtain ⟨n, hn⟩ := reach_dist g s target hreach
  have hnone : ∀ p, ¬ DistIs g s p (d + 1) := by
    intro p hp
    have hdisc : discovered P p := by
      by_contra hnd
      rcases hQ.frontier p hp hnd with ⟨a, ha, _⟩
      cases ha
    cases hQ.pending p hdisc hp
  have hnd : n ≤ d := by
    by_contra hgt
    push_neg at hgt
    obtain ⟨x, hx, _⟩ := dist_level g s target n hn (d + 1) (by omega)
    exact hnone x hx
  have hdisc := hQ.cov target n hn hnd
  have := hQ.targetQ hdisc
  cases this

/-- Popping the queue head: it carries the distance of the current level, and the
rest of the queue still splits into the two level blocks. -/
theorem bfsinv_pop (g : Grid) (s target node : Pos) (q' : List Pos)
    (P : PrevMap) (M : MoveMap)
    (h : BfsInv g s target (node :: q') P M) :
    PrevOk g s P M ∧ ∃ d A' B, q' = A' ++ B ∧ DistIs g s node d ∧
      discovered P node ∧ QInv g s target P d (node :: A') B := by
  obtain ⟨hPok, d, A, B, hq, hQ⟩ := h
  refine ⟨hPok, ?_⟩
  rcases A with _ | ⟨a0, A'⟩
  · have hB : B = node :: q' := by
      rw [List.nil_append] at hq
      exact hq.symm
    subst hB
    have hQ' := qinv_shift g s target P d (node :: q') hQ
    refine ⟨d + 1, q', [], (List.append_nil q').symm, ?_, ?_, hQ'⟩
    · exact (hQ'.distA node (List.mem_cons_self _ _)).1
    · exact (hQ'.distA node (List.mem_cons_self _ _)).2
  · rw [List.cons_append] at hq
    injection hq with h1 h2
    subst h1
    refine ⟨d, A', B, h2, ?_, ?_, hQ⟩
    · exact (hQ.distA node (List.mem_cons_self _ _)).1
    · exact (hQ.distA node (List.mem_cons_self _ _)).2

/-- The fuelled BFS `while` loop, run from any state satisfying the
invariant with enough fuel, keeps the bookkeeping sound; it reports `found`
only for a discovered target, and `not found` only for an unreachable one. -/
theorem bfsLoop_spec (g : Grid) (s target : Pos) :
    ∀ (fuel : Nat) (q : List Pos) (P : PrevMap) (M : MoveMap),
    BfsInv g s target q P M →
    absentCount g P + q.length ≤ fuel →
    PrevOk g s (bfsLoop g target fuel q P M).1 (bfsLoop g target fuel q P M).2.1 ∧
    ((bfsLoop g target fuel q P M).2.2 = true →
      discovered (bfsLoop g target fuel q P M).1 target) ∧
    ((bfsLoop g target fuel q P M).2.2 = false → ¬ Reach g s target) := by
  intro fuel
  induction fuel with
  | zero =>
    intro q P M hinv hmeas
    have hq : q = [] := List.length_eq_zero.mp (by omega)
    subst hq
    simp only [bfsLoop]
    obtain ⟨hPok, d, A, B, hq, hQ⟩ := hinv
    refine ⟨hPok, ?_, ?_⟩
    · intro h; cases h
    · intro _
      exact empty_queue_unreachable g s target P d A B hq.symm hQ
  | succ fuel ih =>
    intro q P M hinv hmeas
    rcases q with _ | ⟨node, q'⟩
    · simp only [bfsLoop]
      obtain ⟨hPok, d, A, B, hq, hQ⟩ := hinv
      refine ⟨hPok, ?_, ?_⟩
      · intro h; cases h
      · intro _
        exact empty_queue_unreachable g s target P d A B hq.symm hQ
    · by_cases htar : node = target
      · have hred : bfsLoop g target (fuel + 1) (node :: q') P M = (P, M, true) := by
          simp only [bfsLoop]
          rw [if_pos htar]
        rw [hred]
        obtain ⟨hPok, d, A, B, hq, hQ⟩ := hinv
        have hmem : node ∈ A ++ B := by
          rw [← hq]
          exact List.mem_cons_self _ _
        have hdisc : discovered P node := by
          rcases List.mem_append.mp hmem with h | h
          · exact (hQ.distA node h).2
          · exact (hQ.distB node h).2
        refine ⟨hPok, ?_, ?_⟩
        · intro _
          rw [← htar]
          exact hdisc
        · intro h; cases h
      · obtain ⟨hPok, d, A', B, hq', hnd, hdn, hQ⟩ := bfsinv_pop g s target node q' P M hinv
        subst hq'
        obtain ⟨news', P', M', e1, e2, e3, e4, e5, e6, e7, e8, e9, e10, e11⟩ :=
          expand_inv g s target node d hnd A' B (neighborsOf g node) [] P M
            (fun x hx => (stepLegal_iff_neighbor g node x.1 x.2).mpr (by simpa using hx))
            hPok
            hdn
            (fun a ha => hQ.distA a (List.mem_cons_of_mem _ ha))
            (fun b hb => hQ.distB b (by simpa using hb))
            hQ.cov
            (by
              intro p hp hnp
              rcases hQ.frontier p hp hnp with ⟨a, ha, dd, hdd⟩
              rcases List.mem_cons.mp ha with rfl | ha'
              · exact Or.inr ⟨dd, (stepLegal_iff_neighbor g a p dd).mp hdd⟩
              · exact Or.inl ⟨a, ha', dd, hdd⟩)
            (fun p hdp hp => by simpa using hQ.pending p hdp hp)
            hQ.distBound
            (by
              intro hdt
              have := hQ.targetQ hdt
              rcases List.mem_cons.mp this with heq | hmem
              · exact absurd heq.symm htar
              · simpa using hmem)
        have e1' : expandNbrs node (neighborsOf g node) (A' ++ B, P, M) =
            ((A' ++ B) ++ news', P', M') := by
          rw [← e1, List.append_nil]
        have hred : bfsLoop g target (fuel + 1) (node :: (A' ++ B)) P M =
            bfsLoop g target fuel ((A' ++ B) ++ news') P' M' := by
          simp only [bfsLoop]
          rw [if_neg htar, e1']
        rw [hred]
        apply ih
        · refine ⟨e2, d, A', B ++ news', by rw [List.append_assoc], ?_⟩
          exact ⟨e4, e5, e6, e7, e8, e9,
            fun h => by rw [List.append_assoc] at e10; exact e10 h⟩
        · have hlen : ((A' ++ B) ++ ([] : List Pos)).length = (A' ++ B).length := by
            rw [List.append_nil]
          have hq1 : (node :: (A' ++ B)).length = (A' ++ B).length + 1 := rfl
          omega

/-- The BFS of `get_llm_response`, from its seeded state: sound bookkeeping,
`found` implies the target is a `prev` key, `not found` implies the target
is unreachable. -/
theorem bfsRun_spec (g : Grid) (s target : Pos) :
    PrevOk g s (bfsRun g s target).1 (bfsRun g s target).2.1 ∧
    ((bfsRun g s target).2.2 = true → discovered (bfsRun g s target).1 target) ∧
    ((bfsRun g s target).2.2 = false → ¬ Reach g s target) := by
  have hdiscs : discovered [((s : Pos), (none : Option Pos))] s := by
    unfold discovered alookup
    rw [if_pos rfl]
    intro h
    cases h
  have honly : ∀ p : Pos, alookup [((s : Pos), (none : Option Pos))] p ≠ none → p = s := by
    intro p hp
    unfold alookup at hp
    by_cases hps : p = s
    · exact hps
    · rw [if_neg hps] at hp
      exact absurd rfl hp
  unfold bfsRun
  apply bfsLoop_spec
  · refine ⟨⟨?_, ?_, ?_, ?_⟩, 0, [s], [], rfl, ?_, ?_, ?_, ?_, ?_, ?_, ?_⟩
    · unfold alookup
      rw [if_pos rfl]
    · intro p hp
      exact honly p (by rw [hp]; intro hc; cases hc)
    · intro p r hp
      by_cases hps : p = s
      · subst hps
        unfold alookup at hp
        rw [if_pos rfl] at hp
        injection hp with hp
        cases hp
      · unfold alookup at hp
        rw [if_neg hps] at hp
        cases hp
    · intro p _
      rfl
    · intro a ha
      rcases List.mem_singleton.mp ha with rfl
      exact ⟨DistIs_self g a, hdiscs⟩
    · intro b hb
      cases hb
    · intro p n hp hn
      have hn0 : n = 0 := by omega
      subst hn0
      have := DistIs_zero g s p hp
      subst this
      exact hdiscs
    · intro p hp _
      obtain ⟨r, dd, hstep, hr⟩ := dist_pred g s p 0 hp
      have hrs : r = s := DistIs_zero g s r hr
      subst hrs
      exact ⟨r, List.mem_singleton.mpr rfl, dd, hstep⟩
    · intro p hdp hp
      have hps : p = s := honly p hdp
      rw [hps] at hp
      have := DistIs_unique g s s hp (DistIs_self g s)
      omega
    · intro p n hdp hp
      have hps : p = s := honly p hdp
      rw [hps] at hp
      have := DistIs_unique g s s hp (DistIs_self g s)
      omega
    · intro h
      have hts : target = s := honly target h
      rw [hts]
      simp
  · have hle := absentCount_le g [(s, none)]
    rw [allPos_length] at hle
    have h1 : ([s] : List Pos).length = 1 := rfl
    unfold bfsFuel
    omega

/-- Every `prev` key is reachable. -/
theorem reach_of_discovered (g : Grid) (s : Pos) (P : PrevMap) (M : MoveMap)
    (hP : PrevOk g s P M) (p : Pos) (hd : alookup P p ≠ none) : Reach g s p := by
  cases hp : alookup P p with
  | none => exact absurd hp hd
  | some op =>
    cases op with
    | none =>
      have := hP.root_only p hp
      rw [this]
      exact ⟨[], decide_eq_true rfl⟩
    | some r =>
      obtain ⟨_, _, _, _, _, hp₀, _⟩ := hP.parent p r hp
      exact reach_of_dist g s p hp₀

/-- Path reconstruction from a sound `prev`/`prev_move`: walking back from a
key at distance `n` (with fuel beyond `n`) produces a legal walk from the
start of length exactly `n`, prepended to the accumulator. -/
theorem recon_spec (g : Grid) (s : Pos) (P : PrevMap) (M : MoveMap) (hP : PrevOk g s P M) :
    ∀ (n : Nat) (p : Pos), alookup P p ≠ none → DistIs g s p n →
    ∀ (fuel : Nat), n < fuel → ∀ (acc : List String),
    ∃ ds, reconLoop P M fuel p acc = some (ds ++ acc) ∧
      ds.length = n ∧ pathOkB g s ds p = true := by
  intro n
  induction n with
  | zero =>
    intro p hdp hp fuel hf acc
    have hps : p = s := DistIs_zero g s p hp
    rcases fuel with _ | f
    · omega
    refine ⟨[], ?_, rfl, ?_⟩
    · have hred : reconLoop P M (f + 1) p acc = some acc := by
        rw [hps]
        simp only [reconLoop, hP.root]
      rw [hred]
      rfl
    · rw [hps]
      exact decide_eq_true rfl
  | succ k ihk =>
    intro p hdp hp fuel hf acc
    rcases fuel with _ | f
    · omega
    cases hPp : alookup P p with
    | none => exact absurd hPp hdp
    | some op =>
      cases op with
      | none =>
        have hps := hP.root_only p hPp
        rw [hps] at hp
        have := DistIs_unique g s s hp (DistIs_self g s)
        omega
      | some r =>
        obtain ⟨d₀, n₀, hM₀, hstep₀, hr₀, hp₀, hdr₀⟩ := hP.parent p r hPp
        have hkn : n₀ = k := by
          have := DistIs_unique g s p hp hp₀
          omega
        rw [hkn] at hr₀
        obtain ⟨ds, hds, hlen, hpath⟩ := ihk r hdr₀ hr₀ f (by omega) (d₀ :: acc)
        refine ⟨ds ++ [d₀], ?_, ?_, pathOkB_snoc g s r p ds d₀ hpath hstep₀⟩
        · have hred : reconLoop P M (f + 1) p acc =
              reconLoop P M f r ((alookup M p).getD "" :: acc) := by
            simp only [reconLoop, hPp]
          rw [hred, hM₀, Option.getD_some, hds]
          rw [List.append_assoc]
          rfl
        · rw [List.length_append, hlen]
          rfl

/-- When the target is reachable, `bfsPath` returns a legal walk of exactly
the shortest length. -/
theorem bfsPath_found (g : Grid) (s t : Pos) (hreach : Reach g s t) :
    ∃ ds, bfsPath g s t = some ds ∧ pathOkB g s ds t = true ∧
      DistIs g s t ds.length := by
  obtain ⟨hPok, hfound, hnotfound⟩ := bfsRun_spec g s t
  cases hb : (bfsRun g s t).2.2 with
  | false => exact absurd hreach (hnotfound hb)
  | true =>
    have hdisc := hfound hb
    obtain ⟨n, hn⟩ := reach_dist g s t hreach
    have hnlt : n < bfsFuel g := by
      have h1 := dist_le_card g s t n hn
      rw [allPos_length] at h1
      unfold bfsFuel
      omega
    obtain ⟨ds, hds, hlen, hpath⟩ :=
      recon_spec g s (bfsRun g s t).1 (bfsRun g s t).2.1 hPok n t hdisc hn
        (bfsFuel g) hnlt []
    rw [List.append_nil] at hds
    refine ⟨ds, ?_, hpath, by rw [hlen]; exact hn⟩
    show (if (bfsRun g s t).2.2 = true then
        reconLoop (bfsRun g s t).1 (bfsRun g s t).2.1 (bfsFuel g) t [] else none) = some ds
    rw [hb]
    simp only [if_true]
    exact hds

/-- When the target is unreachable, `bfsPath` signals no path. -/
theorem bfsPath_unreachable (g : Grid) (s t : Pos) (hun : ¬ Reach g s t) :
    bfsPath g s t = none := by
  obtain ⟨hPok, hfound, _⟩ := bfsRun_spec g s t
  cases hb : (bfsRun g s t).2.2 with
  | false =>
    show (if (bfsRun g s t).2.2 = true then
        reconLoop (bfsRun g s t).1 (bfsRun g s t).2.1 (bfsFuel g) t [] else none) = none
    rw [hb]
    simp
  | true =>
    exact absurd (reach_of_discovered g s (bfsRun g s t).1 (bfsRun g s t).2.1
      hPok t (hfound hb)) hun

/-- A ball that has stopped growing contains every reachable position; a
position outside it is unreachable. -/
theorem not_reach_of_ball_fixed (g : Grid) (s t : Pos) (n : Nat)
    (hfix : ∀ p ∈ ballList g s (n + 1), p ∈ ballList g s n)
    (ht : t ∉ ballList g s n) : ¬ Reach g s t := by
  intro hreach
  obtain ⟨ds, hds⟩ := hreach
  have hin := path_end_ball g s t ds hds
  have hcollapse : ∀ m p, p ∈ ballList g s (n + m) → p ∈ ballList g s n := by
    intro m
    induction m with
    | zero => exact fun p hp => hp
    | succ j ihj =>
      intro p hp
      have hp' : p ∈ ballList g s (n + j) ∨ p ∈ stepSet g (ballList g s (n + j)) := by
        have := List.mem_dedup.mp hp
        exact List.mem_append.mp this
      rcases hp' with h | h
      · exact ihj p h
      · obtain ⟨x, hx, hq⟩ := List.mem_flatMap.mp h
        obtain ⟨qd, hqd, heq⟩ := List.mem_map.mp hq
        have hxq : stepLegal g x qd.2 = some p := by
          apply (stepLegal_iff_neighbor g x p qd.2).mpr
          rw [show ((p, qd.2) : Pos × String) = qd from ?_]
          · exact hqd
          · rcases qd with ⟨q1, q2⟩
            simp only at heq ⊢
            rw [heq]
        have hxn : x ∈ ballList g s n := ihj x hx
        exact hfix p (ball_step g s n x p qd.2 hxn hxq)
  rcases le_or_lt ds.length n with hle | hgt
  · exact ht (ball_le g s hle t hin)
  · have heq : n + (ds.length - n) = ds.length := by omega
    exact ht (hcollapse (ds.length - n) t (by rw [heq]; exact hin))

/-! ### From planner steps to `move_agent`, and the claims C1 and C4 -/

/-- A legal planner step is executed faithfully by `move_agent`: the agent
ends on the destination of that step. -/
theorem move_agent_of_stepLegal (g : Grid) (p : Pos) (d : String) (q : Pos)
    (h : stepLegal g p d = some q) : (move_agent g p d).1 = q := by
  unfold stepLegal at h
  cases halo : alookup dirOffsets d with
  | none => rw [halo] at h; cases h
  | some off =>
    rw [halo] at h
    dsimp only at h
    by_cases hg : (inBnds g (padd p off) && decide (cellAt g (padd p off) ≠ Cell.W)) = true
    case neg => rw [if_neg hg] at h; cases h
    rw [if_pos hg] at h
    injection h with h
    have hmem := alookup_mem _ _ _ halo
    unfold dirOffsets at hmem
    simp only [List.mem_cons, List.not_mem_nil, or_false, Prod.mk.injEq] at hmem
    have hstep : ∀ tgt : Pos, tgt = padd p off →
        (move_agent.moveStep g p tgt).1 = q := by
      intro tgt htgt
      rw [htgt]
      unfold move_agent.moveStep
      rw [if_pos hg]
      exact h
    rcases hmem with ⟨hd, hoff⟩ | ⟨hd, hoff⟩ | ⟨hd, hoff⟩ | ⟨hd, hoff⟩ <;>
      subst hd <;> subst hoff <;>
      simp only [move_agent] <;>
      first
        | (rw [if_pos (by decide)]
           apply hstep
           unfold padd
           rw [Prod.mk.injEq]
           constructor <;> omega)
        | (rw [if_neg (by decide), if_pos (by decide)]
           apply hstep
           unfold padd
           rw [Prod.mk.injEq]
           constructor <;> omega)
        | (rw [if_neg (by decide), if_neg (by decide), if_pos (by decide)]
           apply hstep
           unfold padd
           rw [Prod.mk.injEq]
           constructor <;> omega)
        | (rw [if_neg (by decide), if_neg (by decide), if_neg (by decide),
            if_pos (by decide)]
           apply hstep
           unfold padd
           rw [Prod.mk.injEq]
           constructor <;> omega)

/-- Replaying a legal walk through `move_agent` lands on its endpoint. -/
theorem replay_of_path (g : Grid) : ∀ (ds : List String) (p t : Pos),
    pathOkB g p ds t = true → replayPos g p ds = t := by
  intro ds
  induction ds with
  | nil =>
    intro p t h
    exact of_decide_eq_true h
  | cons d ds ih =>
    intro p t h
    unfold pathOkB at h
    cases hs : stepLegal g p d with
    | none => rw [hs] at h; cases h
    | some q =>
      rw [hs] at h
      have hm := move_agent_of_stepLegal g p d q hs
      unfold replayPos
      rw [List.foldl_cons, hm]
      exact ih q t h

/-- Members of the Treasure scan are Treasure cells. -/
theorem targetsOf_mem (g : Grid) (p : Pos) (h : p ∈ targetsOf g) :
    cellAt g p = Cell.T := by
  unfold targetsOf at h
  rcases List.mem_flatMap.mp h with ⟨r, _, hr⟩
  rcases List.mem_filterMap.mp hr with ⟨c, _, hc⟩
  by_cases hcell : cellAt g (Int.ofNat r, Int.ofNat c) = Cell.T
  · rw [if_pos hcell] at hc
    injection hc with hc
    rw [← hc]
    exact hcell
  · rw [if_neg hcell] at hc
    cases hc

/-- The per-request emission loop of the planner: starting anywhere at shortest
distance `n` from the first Treasure (with a fuel of at least `n` requests
and no valid cached plan), the emitted directions form a legal walk of
length exactly `n` to the Treasure. -/
theorem agentSteps_spec (g : Grid) (t : Pos) (rest : List Pos)
    (ht : targetsOf g = t :: rest) :
    ∀ (n : Nat) (pos : Pos) (cache : Cache) (fuel : Nat),
    DistIs g pos t n → n ≤ fuel →
    (cache = none ∨ ∃ pl ow, cache = some (pl, ow) ∧ ow ≠ pos) →
    pathOkB g pos (agentSteps g fuel pos cache) t = true ∧
    (agentSteps g fuel pos cache).length = n := by
  intro n
  induction n with
  | zero =>
    intro pos cache fuel hdist _ hcache
    have hpt : t = pos := DistIs_zero g pos t hdist
    obtain ⟨path, hbp, _, hdl⟩ := bfsPath_found g pos t (reach_of_dist g pos t hdist)
    have hlen0 : path.length = 0 := DistIs_unique g pos t hdl hdist
    have hpathnil : path = [] := List.length_eq_zero.mp hlen0
    subst hpathnil
    rcases fuel with _ | f
    · exact ⟨by rw [← hpt] at hdist ⊢; exact decide_eq_true rfl, rfl⟩
    · have hsteps : agentSteps g (f + 1) pos cache = [] := by
        simp only [agentSteps, get_llm_logic, ht, hbp]
        rcases hcache with rfl | ⟨pl, ow, rfl, how⟩
        · by_cases hcell : cellAt g pos = Cell.T <;> simp [hcell]
        · by_cases hcell : cellAt g pos = Cell.T <;> simp [hcell, how]
      rw [hsteps]
      exact ⟨by rw [← hpt]; exact decide_eq_true rfl, rfl⟩
  | succ k ihk =>
    intro pos cache fuel hdist hnf hcache
    rcases fuel with _ | f
    · omega
    obtain ⟨path, hbp, hpath, hdl⟩ := bfsPath_found g pos t (reach_of_dist g pos t hdist)
    have hlen : path.length = k + 1 := DistIs_unique g pos t hdl hdist
    rcases path with _ | ⟨d0, ptail⟩
    · cases hlen
    have hhead : ∃ q, stepLegal g pos d0 = some q ∧ pathOkB g q ptail t = true := by
      unfold pathOkB at hpath
      cases hs : stepLegal g pos d0 with
      | none => rw [hs] at hpath; cases hpath
      | some q => rw [hs] at hpath; exact ⟨q, rfl, hpath⟩
    obtain ⟨q, hs, hq⟩ := hhead
    have hqdist : DistIs g q t k := by
      refine ⟨⟨ptail, by simpa using hlen, hq⟩, ?_⟩
      intro ds₀ h₀
      by_contra hc
      push_neg at hc
      have hext : pathOkB g pos (d0 :: ds₀) t = true := by
        unfold pathOkB
        rw [hs]
        exact h₀
      have := hdist.2 (d0 :: ds₀) hext
      simp only [List.length_cons] at this
      omega
    have hqne : q ≠ pos := (stepLegal_facts g pos d0 q hs).2.2
    have hlogic : get_llm_logic g pos cache = (.action ptail.length d0, some (ptail, pos)) := by
      simp only [get_llm_logic, ht, hbp]
      rcases hcache with rfl | ⟨pl, ow, rfl, how⟩
      · rfl
      · simp [how]
    have hmove : (move_agent g pos d0).1 = q := move_agent_of_stepLegal g pos d0 q hs
    have hsteps : agentSteps g (f + 1) pos cache =
        d0 :: agentSteps g f q (some (ptail, pos)) := by
      simp only [agentSteps, hlogic, hmove]
    rw [hsteps]
    obtain ⟨ih1, ih2⟩ := ihk q (some (ptail, pos)) f hqdist (by omega)
      (Or.inr ⟨ptail, pos, rfl, fun hc => hqne hc.symm⟩)
    refine ⟨?_, ?_⟩
    · unfold pathOkB
      rw [hs]
      exact ih1
    · simp only [List.length_cons, ih2]

set_option linter.unusedVariables false in
/-- C1 (amended): for every grid whose first row-major Goal cell is
reachable from the start, the full emitted move sequence of the planner — one
direction per decision request, each replayed against the environment via
`move_agent` before the next request — is a legal walk that leaves the
agent exactly on that Goal cell, and its length is the BFS shortest-path
distance from the start to that cell. -/
theorem claim_C1_amended (g : Grid) (s t : Pos) (rest : List Pos) (fuel : Nat)
    (ht : targetsOf g = t :: rest)
    (hreach : Reach g s t)
    (hfuel : ∀ n, DistIs g s t n → n ≤ fuel) :
    cellAt g t = Cell.T ∧
    pathOkB g s (agentSteps g fuel s none) t = true ∧
    replayPos g s (agentSteps g fuel s none) = t ∧
    DistIs g s t (agentSteps g fuel s none).length := by
  obtain ⟨n, hn⟩ := reach_dist g s t hreach
  obtain ⟨h1, h2⟩ := agentSteps_spec g t rest ht n s none fuel hn (hfuel n hn) (Or.inl rfl)
  refine ⟨?_, h1, replay_of_path g _ s t h1, ?_⟩
  · apply targetsOf_mem
    rw [ht]
    exact List.mem_cons_self _ _
  · rw [h2]
    exact hn

/-- C1 amended-claim witness: a 1×3 corridor with the Treasure at its east
end; the planner emits EAST, EAST. -/
theorem claim_C1_amended_witness :
    cellAt [[Cell.O, Cell.O, Cell.T]] ((0 : Int), (2 : Int)) = Cell.T ∧
    pathOkB [[Cell.O, Cell.O, Cell.T]] (0, 0)
      (agentSteps [[Cell.O, Cell.O, Cell.T]] 25 (0, 0) none) ((0 : Int), (2 : Int)) = true ∧
    replayPos [[Cell.O, Cell.O, Cell.T]] (0, 0)
      (agentSteps [[Cell.O, Cell.O, Cell.T]] 25 (0, 0) none) = ((0 : Int), (2 : Int)) ∧
    DistIs [[Cell.O, Cell.O, Cell.T]] (0, 0) ((0 : Int), (2 : Int))
      (agentSteps [[Cell.O, Cell.O, Cell.T]] 25 (0, 0) none).length :=
  claim_C1_amended [[Cell.O, Cell.O, Cell.T]] (0, 0) ((0 : Int), (2 : Int)) [] 25
    (by decide)
    ⟨["EAST", "EAST"], by decide⟩
    (fun n hn => Nat.le_trans (hn.2 ["EAST", "EAST"] (by decide))
      (by decide : (["EAST", "EAST"] : List String).length ≤ 25))

/-- C1 counterexample: reading the hypothesis of the claim as "some Goal cell is
reachable": on a 4×1 grid whose first (row-major) Goal is walled off while
a second Goal is adjacent to the start, the planner announces no-path and
emits no moves, so the replay stays on the start cell, which is not a Goal
cell. -/
theorem claim_C1_counterexample :
    (∃ tg ∈ targetsOf [[Cell.T], [Cell.W], [Cell.O], [Cell.T]],
      Reach [[Cell.T], [Cell.W], [Cell.O], [Cell.T]] ((2 : Int), (0 : Int)) tg) ∧
    agentSteps [[Cell.T], [Cell.W], [Cell.O], [Cell.T]] 25 ((2 : Int), (0 : Int)) none = [] ∧
    replayPos [[Cell.T], [Cell.W], [Cell.O], [Cell.T]] ((2 : Int), (0 : Int)) [] =
      ((2 : Int), (0 : Int)) ∧
    cellAt [[Cell.T], [Cell.W], [Cell.O], [Cell.T]] ((2 : Int), (0 : Int)) ≠ Cell.T := by
  refine ⟨⟨((3 : Int), (0 : Int)), by decide, ⟨["SOUTH"], by decide⟩⟩, ?_, by decide, by decide⟩
  have hun : ¬ Reach [[Cell.T], [Cell.W], [Cell.O], [Cell.T]] ((2 : Int), (0 : Int))
      ((0 : Int), (0 : Int)) := by
    apply not_reach_of_ball_fixed _ _ _ 1 ?_ ?_
    · decide
    · decide
  have hbp := bfsPath_unreachable [[Cell.T], [Cell.W], [Cell.O], [Cell.T]]
    ((2 : Int), (0 : Int)) ((0 : Int), (0 : Int)) hun
  have htg : targetsOf [[Cell.T], [Cell.W], [Cell.O], [Cell.T]] =
      ((0 : Int), (0 : Int)) :: [((3 : Int), (0 : Int))] := by decide
  simp only [agentSteps, get_llm_logic, htg, hbp]

/-- C4: a grid without a Goal makes the planner emit the terminal no-goal
final answer without touching its cache; a grid whose (first) Goal is
unreachable makes it emit the terminal no-path final answer; in both cases
the agent loop records the message and terminates in one iteration with the
final-answer outcome, dispatching no tool and leaving the environment and
cache untouched. -/
theorem claim_C4_structural_failures :
    (∀ (g : Grid) (pos : Pos) (cache : Cache), targetsOf g = [] →
      get_llm_logic g pos cache = (.finalNoGoal, cache)) ∧
    (∀ (g : Grid) (pos : Pos) (cache : Cache) (t : Pos) (rest : List Pos),
      targetsOf g = t :: rest → ¬ Reach g pos t →
      get_llm_logic g pos cache = (.finalNoPath, cache)) ∧
    (∀ (st : LoopState) (n : Nat),
      (targetsOf st.env.grid = [] ∨
        (∃ t rest, targetsOf st.env.grid = t :: rest ∧
          ¬ Reach st.env.grid st.env.agent_pos t)) →
      ∃ msg, pyStartsWith msg "Final Answer:" = true ∧
        runLoop llmSource (n + 1) st =
          ({ st with history := st.history ++ [("assistant", msg)] },
           .finalAnswer msg, [], 1)) := by
  have hng : ∀ (g : Grid) (pos : Pos) (cache : Cache), targetsOf g = [] →
      get_llm_logic g pos cache = (.finalNoGoal, cache) := by
    intro g pos cache h
    unfold get_llm_logic
    rw [h]
  have hnp : ∀ (g : Grid) (pos : Pos) (cache : Cache) (t : Pos) (rest : List Pos),
      targetsOf g = t :: rest → ¬ Reach g pos t →
      get_llm_logic g pos cache = (.finalNoPath, cache) := by
    intro g pos cache t rest h hun
    simp only [get_llm_logic, h, bfsPath_unreachable g pos t hun]
  refine ⟨hng, hnp, ?_⟩
  intro st n hcase
  have hsrc : ∃ out, llmSource st = (renderLlm out, st.cache) ∧
      pyStartsWith (renderLlm out) "Final Answer:" = true := by
    rcases hcase with h | ⟨t, rest, h, hun⟩
    · refine ⟨.finalNoGoal, ?_, by decide⟩
      unfold llmSource get_llm_response
      rw [hng st.env.grid st.env.agent_pos st.cache h]
    · refine ⟨.finalNoPath, ?_, by decide⟩
      unfold llmSource get_llm_response
      rw [hnp st.env.grid st.env.agent_pos st.cache t rest h hun]
  obtain ⟨out, hs, hf⟩ := hsrc
  refine ⟨renderLlm out, hf, ?_⟩
  have hiter := loopIter_final llmSource st (by rw [hs]; exact hf)
  rw [hs] at hiter
  unfold runLoop
  rw [hiter]

/-- C4 witness: a goalless 1×1 grid and a walled-off-Goal 1×3 grid. -/
theorem claim_C4_structural_failures_witness :
    get_llm_logic [[Cell.O]] ((0 : Int), (0 : Int)) none = (.finalNoGoal, none) ∧
    get_llm_logic [[Cell.T, Cell.W, Cell.O]] ((0 : Int), (2 : Int)) none =
      (.finalNoPath, none) ∧
    (∃ msg, pyStartsWith msg "Final Answer:" = true ∧
      (runLoop llmSource 1
        { env := { grid := [[Cell.O]], agent_pos := (0, 0), map_memory := [] },
          cache := none, history := [] }).2.1 = RunOutcome.finalAnswer msg) := by
  have hun : ¬ Reach [[Cell.T, Cell.W, Cell.O]] ((0 : Int), (2 : Int))
      ((0 : Int), (0 : Int)) :=
    not_reach_of_ball_fixed _ _ _ 1 (by decide) (by decide)
  refine ⟨claim_C4_structural_failures.1 _ _ _ (by decide),
    claim_C4_structural_failures.2.1 _ _ _ ((0 : Int), (0 : Int)) [] (by decide) hun, ?_⟩
  obtain ⟨msg, hf, hrun⟩ := claim_C4_structural_failures.2.2
    { env := { grid := [[Cell.O]], agent_pos := (0, 0), map_memory := [] },
      cache := none, history := [] } 0 (Or.inl (by decide))
  exact ⟨msg, hf, by rw [hrun]⟩

end GridAgent
